import Mathlib

/-!
# Verification of the lapstrake geometry core

A shallow embedding, over the real numbers, of the geometry engine of the
lapstrake boat-lofting program: the centripetal Catmull-Rom segment
(`src/catmullrom.rs`), the chained `Spline` with its cached polyline and
arc-length queries (`src/spline.rs`), the plank flattening and layout code
(`src/hull.rs`) and the small utilities they use (`src/util.rs`).

Rust's `f32` arithmetic is modelled by exact real arithmetic.  Fallible
operations (`Result` in Rust) and panics (`expect`, index-out-of-range,
explicit `panic!`) are both modelled with `Option`: `none` is "the Rust
computation does not return normally".  Where a claim distinguishes a
recoverable `Err` from a panic, the embedding refines this with `Except`
(see `Spline.atX`, whose `Ok`-only body is the point of one of the claims).
-/

noncomputable section

open Classical

/-- A 3-d point (nalgebra `P3` in the source). -/
@[ext]
structure P3 where
  x : ℝ
  y : ℝ
  z : ℝ

instance : Inhabited P3 := ⟨⟨0, 0, 0⟩⟩

/-- A 2-d point or vector (nalgebra `P2`/`V2` in the source). -/
@[ext]
structure P2 where
  x : ℝ
  y : ℝ

instance : Inhabited P2 := ⟨⟨0, 0⟩⟩

instance : Add P3 := ⟨fun p q => ⟨p.x + q.x, p.y + q.y, p.z + q.z⟩⟩

instance : SMul ℝ P3 := ⟨fun a p => ⟨a * p.x, a * p.y, a * p.z⟩⟩

instance : Add P2 := ⟨fun p q => ⟨p.x + q.x, p.y + q.y⟩⟩

instance : Sub P2 := ⟨fun p q => ⟨p.x - q.x, p.y - q.y⟩⟩

instance : SMul ℝ P2 := ⟨fun a p => ⟨a * p.x, a * p.y⟩⟩

@[simp] theorem P3_add_def (p q : P3) : p + q = ⟨p.x + q.x, p.y + q.y, p.z + q.z⟩ := rfl

@[simp] theorem P3_smul_def (a : ℝ) (p : P3) : a • p = ⟨a * p.x, a * p.y, a * p.z⟩ := rfl

@[simp] theorem P2_add_def (p q : P2) : p + q = ⟨p.x + q.x, p.y + q.y⟩ := rfl

@[simp] theorem P2_sub_def (p q : P2) : p - q = ⟨p.x - q.x, p.y - q.y⟩ := rfl

@[simp] theorem P2_smul_def (a : ℝ) (p : P2) : a • p = ⟨a * p.x, a * p.y⟩ := rfl

/-- Euclidean distance between two 3-d points (`scad_dots::utils::distance`). -/
def dist3 (p q : P3) : ℝ :=
  Real.sqrt ((p.x - q.x) ^ 2 + (p.y - q.y) ^ 2 + (p.z - q.z) ^ 2)

/-- Euclidean distance between two 2-d points. -/
def dist2 (p q : P2) : ℝ :=
  Real.sqrt ((p.x - q.x) ^ 2 + (p.y - q.y) ^ 2)

/-- `util::EQUALITY_THRESHOLD`: how near points must be to be considered equal. -/
def EQUALITY_THRESHOLD : ℝ := 0.05

/-- `util::practically_zero`. -/
def practicallyZero (x : ℝ) : Prop := |x| < 0.00000001

/-- The axes of `scad_dots::utils::Axis`. -/
inductive Axis | X | Y | Z

/-- `util::project`: drop the coordinate along `axis`. -/
def project : Axis → P3 → P2
  | Axis.X, p => ⟨p.y, p.z⟩
  | Axis.Y, p => ⟨p.x, p.z⟩
  | Axis.Z, p => ⟨p.x, p.y⟩

/-- `util::project_points`. -/
def projectPoints (axis : Axis) (points : List P3) : List P2 :=
  points.map (project axis)

/-! ## Centripetal Catmull-Rom segments (`src/catmullrom.rs`) -/

/-- `catmullrom::CentripetalCatmullRom`: four control points and the knot
parameters at which each is hit. -/
structure CentripetalCatmullRom where
  points : List P3
  knots : List ℝ

/-- Array access `self.points[i]`. -/
def CentripetalCatmullRom.pt (c : CentripetalCatmullRom) (i : ℕ) : P3 :=
  c.points.getD i default

/-- Array access `self.knots[i]`. -/
def CentripetalCatmullRom.knot (c : CentripetalCatmullRom) (i : ℕ) : ℝ :=
  c.knots.getD i 0

/-- `CentripetalCatmullRom::new`: knots by the centripetal (alpha = 1/2) rule. -/
def CentripetalCatmullRom.new (p0 p1 p2 p3 : P3) : CentripetalCatmullRom :=
  let t0 : ℝ := 0
  let t1 : ℝ := Real.sqrt (dist3 p1 p0) + t0
  let t2 : ℝ := Real.sqrt (dist3 p2 p1) + t1
  let t3 : ℝ := Real.sqrt (dist3 p3 p2) + t2
  ⟨[p0, p1, p2, p3], [t0, t1, t2, t3]⟩

/-- `catmullrom::Segment`. -/
inductive Segment | First | Middle | Last
deriving DecidableEq

/-- `Segment::index`. -/
def Segment.index : Segment → ℕ
  | Segment.First => 0
  | Segment.Middle => 1
  | Segment.Last => 2

/-- `CentripetalCatmullRom::intermediate`: one weighted linear blend of the
Barry-Goldman cascade. -/
def CentripetalCatmullRom.intermediate (c : CentripetalCatmullRom)
    (i j : ℕ) (p q : P3) (t : ℝ) : P3 :=
  ((c.knot j - t) / (c.knot j - c.knot i)) • p +
    ((t - c.knot i) / (c.knot j - c.knot i)) • q

/-- `CentripetalCatmullRom::compute`: the full blend cascade; outside the
middle segment the final blend falls back to the Lagrange curve. -/
def CentripetalCatmullRom.compute (c : CentripetalCatmullRom)
    (t : ℝ) (useLagrangian : Bool) : P3 :=
  let a1 := c.intermediate 0 1 (c.pt 0) (c.pt 1) t
  let a2 := c.intermediate 1 2 (c.pt 1) (c.pt 2) t
  let a3 := c.intermediate 2 3 (c.pt 2) (c.pt 3) t
  let b1 := c.intermediate 0 2 a1 a2 t
  let b2 := c.intermediate 1 3 a2 a3 t
  if useLagrangian then c.intermediate 0 3 b1 b2 t else c.intermediate 1 2 b1 b2 t

/-- `CentripetalCatmullRom::at`: the point a fraction `f` along `segment`. -/
def CentripetalCatmullRom.atFrac (c : CentripetalCatmullRom)
    (f : ℝ) (segment : Segment) : P3 :=
  let i := segment.index
  let t := c.knot i + f * (c.knot (i + 1) - c.knot i)
  c.compute t (segment ≠ Segment.Middle)

/-- `CentripetalCatmullRom::sample`: `resolution` points along the chosen
segment, plus the endpoint when `at_end`. -/
def CentripetalCatmullRom.sample (c : CentripetalCatmullRom)
    (segment : Segment) (resolution : ℕ) (atEnd : Bool) : List P3 :=
  ((List.range resolution).map fun (k : ℕ) =>
    c.atFrac ((k : ℝ) / (resolution : ℝ)) segment) ++
    (if atEnd then [c.atFrac 1 segment] else [])

/-! ## Splines (`src/spline.rs`) -/

/-- `spline::Spline`: the cached dense polyline. -/
structure Spline where
  points : List P3

/-- The inner loop of `spline::count_multiplicity`. -/
def countMultAux (prev : P3) (mult : ℕ) : List P3 → List (P3 × ℕ)
  | [] => [(prev, mult)]
  | point :: rest =>
    if point = prev then countMultAux prev (mult + 1) rest
    else (prev, mult) :: countMultAux point 1 rest

/-- `spline::count_multiplicity`: collapse runs of equal points, recording how
many times each appeared.  (Rust panics on an empty input; the empty list is
mapped to the empty list, and `Spline.new` then fails on it anyway.) -/
def countMultiplicity : List P3 → List (P3 × ℕ)
  | [] => []
  | point :: rest => countMultAux point 1 rest

/-- `spline::repeat`: a duplicated input point is "interpolated" by repeating
it `(multiplicity - 1) * resolution` times. -/
def repeatPt (pm : P3 × ℕ) (resolution : ℕ) : List P3 :=
  List.replicate ((pm.2 - 1) * resolution) pm.1

/-- The body of the construction loop of `Spline::new`: the chunk of cached
points contributed by the sliding window starting at index `i`. -/
def splineChunk (rp : List (P3 × ℕ)) (resolution : ℕ) (i : ℕ) : List P3 :=
  let n := rp.length
  let c := CentripetalCatmullRom.new (rp.getD i default).1 (rp.getD (i + 1) default).1
    (rp.getD (i + 2) default).1 (rp.getD (i + 3) default).1
  (if i = 0 then
    repeatPt (rp.getD i default) resolution ++ c.sample Segment.First resolution false
  else []) ++
  repeatPt (rp.getD (i + 1) default) resolution ++
  c.sample Segment.Middle resolution false ++
  (if i = n - 4 then
    repeatPt (rp.getD (i + 2) default) resolution ++
      c.sample Segment.Last resolution true ++
      repeatPt (rp.getD (i + 3) default) resolution
  else [])

/-- The concatenation of all chunks: the cached polyline of `Spline::new`. -/
def splinePoints (rp : List (P3 × ℕ)) (resolution : ℕ) : List P3 :=
  (List.range (rp.length - 3)).flatMap (splineChunk rp resolution)

/-- `Spline::new`: fails ("Splines must have at least 4 points.") when fewer
than 4 distinct points remain after collapsing duplicates. -/
def Spline.new (refPoints : List P3) (resolution : ℕ) : Option Spline :=
  let rp := countMultiplicity refPoints
  if rp.length < 4 then none else some ⟨splinePoints rp resolution⟩

/-- `spline::linear_interpolate`. -/
def linearInterpolate (t : ℝ) (pt1 pt2 : P3) : P3 :=
  (1 - t) • pt1 + t • pt2

/-- `spline::projected_distance`: distance between two points once the given
axis is projected away. -/
def projectedDistance (axis : Axis) (pointA pointB : P3) : ℝ :=
  dist2 (project axis pointB) (project axis pointA)

/-- The accumulation loop of `Spline::length`, iterating over consecutive
pairs of the (already projected) polyline. -/
def polyLen2 : List P2 → ℝ
  | point :: prev ::rest => dist2 point prev + polyLen2 (prev :: rest)
  | _ => 0

/-- `Spline::length`: total length of the cached polyline, measured after
projecting away the fore-aft (x) axis. -/
def Spline.length (s : Spline) : ℝ :=
  polyLen2 (projectPoints Axis.X s.points)

/-- The walk of `Spline::at_len` over `points[1..]`; `none` is the
`panic!("Fell off the end of a spline.")`. -/
def atLenWalk (desired : ℝ) : ℝ → P3 → List P3 → Option P3
  | _, _, [] => none
  | len, prevPoint, point :: rest =>
    let delta := projectedDistance Axis.X point prevPoint
    if len + delta ≥ desired then
      if practicallyZero delta then some prevPoint
      else some (linearInterpolate ((desired - len) / delta) prevPoint point)
    else atLenWalk desired (len + delta) point rest

/-- `Spline::at_len` (the `points[0]` access panics on an empty polyline). -/
def Spline.atLen (s : Spline) (desiredLength : ℝ) : Option P3 :=
  match s.points with
  | [] => none
  | p :: rest => atLenWalk desiredLength 0 p rest

/-- `Spline::at_t`. -/
def Spline.atT (s : Spline) (t : ℝ) : Option P3 :=
  s.atLen (t * s.length)

/-- `Option.mapM`-like collection of a list of fallible results, mirroring how
Rust `?`/`collect` propagate the first failure. -/
def collectOpt {α β : Type} (f : α → Option β) : List α → Option (List β)
  | [] => some []
  | a :: rest =>
    match f a, collectOpt f rest with
    | some b, some bs => some (b :: bs)
    | _, _ => none

/-- `Spline::sample`: the cached polyline, or `resolution + 1` fresh `at_t`
samples. -/
def Spline.sample (s : Spline) : Option ℕ → Option (List P3)
  | none => some s.points
  | some resolution =>
    collectOpt (fun (i : ℕ) => s.atT ((i : ℝ) / (resolution : ℝ))) (List.range (resolution + 1))

/-- The `while size > 1` loop of Rust's `slice::binary_search_by` (the
`base`/`size` formulation used by the 2018-era standard library), searching
`xs` for `q`; returns the final `base`. -/
def bsLoop (xs : List ℝ) (q : ℝ) : ℕ → ℕ → ℕ
  | base, size =>
    if h : 1 < size then
      let half := size / 2
      let mid := base + half
      -- `cmp == Greater` keeps `base`; `Less`/`Equal` move it to `mid`.
      if q < xs.getD mid 0 then bsLoop xs q base (size - half)
      else bsLoop xs q mid (size - half)
    else base
termination_by base size => size
decreasing_by
  all_goals simpa using Nat.sub_lt_self (Nat.div_pos h Nat.zero_lt_two) (Nat.div_le_self _ _)

/-- Rust `slice::binary_search_by` on the x-coordinates: `Ok i` (`Sum.inl`)
for an exact hit, `Err i` (`Sum.inr`) with the insertion index otherwise. -/
def binarySearchX (points : List P3) (q : ℝ) : ℕ ⊕ ℕ :=
  let xs := points.map P3.x
  if points.length = 0 then Sum.inr 0
  else
    let base := bsLoop xs q 0 points.length
    let xb := xs.getD base 0
    if xb = q then Sum.inl base
    else if xb < q then Sum.inr (base + 1)
    else Sum.inr base

/-- `Spline::at_x`: nominally returns `Result<P3, Error>`, but the body only
ever builds `Ok`; the `.expect` on an out-of-range index is a panic, modelled
as the outer `none`. -/
def Spline.atX (s : Spline) (desiredX : ℝ) : Option (Except String P3) :=
  let i := match binarySearchX s.points desiredX with
    | Sum.inl i => i
    | Sum.inr i => i
  match s.points.get? i with
  | some p => some (Except.ok p)
  | none => none

/-! ## Plank flattening and layout (`src/hull.rs`) -/

/-- `nalgebra::normalize` on a 2-d vector. -/
def normalize2 (v : P2) : P2 :=
  let n := Real.sqrt (v.x ^ 2 + v.y ^ 2)
  ⟨v.x / n, v.y / n⟩

/-- `Rotation2::new(angle)` applied to a vector: counter-clockwise rotation. -/
def rot2 (angle : ℝ) (v : P2) : P2 :=
  ⟨Real.cos angle * v.x - Real.sin angle * v.y,
   Real.sin angle * v.x + Real.cos angle * v.y⟩

/-- `hull::triangulate`: place a third point at distances `x` from `pt1` and
`y` from `pt2` by the law of cosines, with the two documented degenerate
fallbacks. -/
def triangulate (pt1 pt2 : P2) (x y : ℝ) : P2 :=
  let l := dist2 pt1 pt2
  if practicallyZero (10.0 * l) then pt1 + P2.mk (-x) 0.0
  else if practicallyZero x then
    pt2 + y • rot2 (-(Real.arccos ((l * l + y * y - x * x) / (2.0 * l * y)))) (normalize2 (pt1 - pt2))
  else
    pt1 + x • rot2 (Real.arccos ((l * l + x * x - y * y) / (2.0 * l * x))) (normalize2 (pt2 - pt1))

/-- `hull::Plank`: a strip bounded by two boundary splines. -/
structure Plank where
  top_line : Spline
  bottom_line : Spline
  resolution : ℕ

/-- `hull::FlattenedPlank`: the 2-d unrolled outline. -/
structure FlattenedPlank where
  top_line : List P2
  bottom_line : List P2

instance : Inhabited FlattenedPlank := ⟨⟨[], []⟩⟩

/-- `Plank::new`. -/
def Plank.new (botLine topLine : List P3) (resolution : ℕ) : Option Plank :=
  match Spline.new botLine resolution, Spline.new topLine resolution with
  | some bottom, some top =>
    some ⟨top, bottom, ((botLine.length + topLine.length) / 2) * resolution⟩
  | _, _ => none

/-- `Plank::triangles`: leftmost edge length plus the four 3-d edge lengths of
each successive index pair; `none` covers both a failed resample and the
"different number of top and bottom points" panic. -/
def Plank.triangles (p : Plank) : Option (ℝ × List (ℝ × ℝ × ℝ × ℝ)) :=
  match p.top_line.sample (some p.resolution), p.bottom_line.sample (some p.resolution) with
  | some topPts, some botPts =>
    let leftLen := dist3 (topPts.getD 0 default) (botPts.getD 0 default)
    if topPts.length ≠ botPts.length then none
    else some (leftLen, (List.range (topPts.length - 1)).map fun i =>
      (dist3 (topPts.getD i default) (topPts.getD (i + 1) default),
       dist3 (botPts.getD i default) (topPts.getD (i + 1) default),
       dist3 (topPts.getD (i + 1) default) (botPts.getD (i + 1) default),
       dist3 (botPts.getD i default) (botPts.getD (i + 1) default)))
  | _, _ => none

/-- The triangle-placing loop of `Plank::flatten`: successively triangulate
the next top point from (prev top, prev bottom), then the next bottom point
from (new top, prev bottom). -/
def flattenWalk : List (ℝ × ℝ × ℝ × ℝ) → P2 → P2 → List P2 × List P2
  | [], _, _ => ([], [])
  | (a, b, c, d) :: rest, topPt, botPt =>
    let newTopPt := triangulate topPt botPt a b
    let newBotPt := triangulate newTopPt botPt c d
    let (tops, bots) := flattenWalk rest newTopPt newBotPt
    (newTopPt :: tops, newBotPt :: bots)

/-- `Plank::flatten`: unroll the 3-d plank into 2-d, starting from the left
edge at x = 0. -/
def Plank.flatten (p : Plank) : Option FlattenedPlank :=
  match p.triangles with
  | none => none
  | some (firstLen, triangles) =>
    let topPt : P2 := ⟨0.0, 0.0⟩
    let botPt : P2 := ⟨0.0, firstLen⟩
    let (tops, bots) := flattenWalk triangles topPt botPt
    some ⟨topPt :: tops, botPt :: bots⟩

/-- All y-coordinates of a flattened plank, over both boundary lines: the
coordinates `min_coord(Axis::Y)` / `max_coord(Axis::Y)` fold over. -/
def FlattenedPlank.ys (p : FlattenedPlank) : List ℝ :=
  (p.top_line ++ p.bottom_line).map P2.y

/-- `min_coord(Axis::Y)` of the derived `MinMaxCoord`: fold of `min` over all
points of both lines (0 for the never-occurring empty plank). -/
def FlattenedPlank.minY (p : FlattenedPlank) : ℝ :=
  match p.ys with
  | [] => 0
  | a :: rest => rest.foldl min a

/-- `max_coord(Axis::Y)`, dually. -/
def FlattenedPlank.maxY (p : FlattenedPlank) : ℝ :=
  match p.ys with
  | [] => 0
  | a :: rest => rest.foldl max a

/-- `FlattenedPlank::shift_up`. -/
def FlattenedPlank.shiftUp (p : FlattenedPlank) (dist : ℝ) : FlattenedPlank :=
  ⟨p.top_line.map (fun pt => ⟨pt.x, pt.y + dist⟩),
   p.bottom_line.map (fun pt => ⟨pt.x, pt.y + dist⟩)⟩

/-- `Rotation2::rotation_between(a, (1,0))` applied to `v`: rotate `v` by the
angle that takes `a` to the positive x direction. -/
def rotToHorizontal (a v : P2) : P2 :=
  let n := Real.sqrt (a.x ^ 2 + a.y ^ 2)
  ⟨(a.x * v.x + a.y * v.y) / n, (a.x * v.y - a.y * v.x) / n⟩

/-- `FlattenedPlank::orient_horizontally`: rotate about the first top point so
the chord to the last top point is horizontal. -/
def FlattenedPlank.orientHorizontally (p : FlattenedPlank) : FlattenedPlank :=
  let left := p.top_line.getD 0 default
  let right := p.top_line.getD (p.top_line.length - 1) default
  let a := right - left
  ⟨p.top_line.map (fun pt => left + rotToHorizontal a (pt - left)),
   p.bottom_line.map (fun pt => left + rotToHorizontal a (pt - left))⟩

/-- One placement of the stacking loop of `Hull::get_flattened_planks`: the
`if let Some(last_y)` shift above the previous plank's maximum y extent plus
the `2 * EQUALITY_THRESHOLD` clearance gap. -/
def layOutStep (lastY : Option ℝ) (p1 : FlattenedPlank) : FlattenedPlank :=
  match lastY with
  | none => p1
  | some ly => p1.shiftUp (ly - p1.minY + 2.0 * EQUALITY_THRESHOLD)

/-- The stacking loop of `Hull::get_flattened_planks`: orient each plank, then
shift it above the previously placed plank. -/
def layOutWalk : Option ℝ → List FlattenedPlank → List FlattenedPlank
  | _, [] => []
  | lastY, plank :: rest =>
    let p2 := layOutStep lastY plank.orientHorizontally
    p2 :: layOutWalk (some p2.maxY) rest

/-- `Hull::get_flattened_planks`, applied to the planks `Hull::get_planks`
produced: flatten each plank (`?` propagates the first failure), then lay the
flattened planks out bottom-to-top. -/
def getFlattenedPlanks (planks : List Plank) : Option (List FlattenedPlank) :=
  match collectOpt Plank.flatten planks with
  | none => none
  | some flattened => some (layOutWalk none flattened)

/-! ## Basic facts about distances and knots -/

theorem dist3_nonneg (p q : P3) : 0 ≤ dist3 p q := Real.sqrt_nonneg _

theorem dist2_nonneg (p q : P2) : 0 ≤ dist2 p q := Real.sqrt_nonneg _

theorem dist3_pos (p q : P3) (h : p ≠ q) : 0 < dist3 p q := by
  have hsum : (0:ℝ) ≤ (p.x - q.x) ^ 2 + (p.y - q.y) ^ 2 + (p.z - q.z) ^ 2 := by positivity
  rcases eq_or_lt_of_le hsum with heq | hlt
  · exfalso
    have hx : (p.x - q.x) ^ 2 = 0 ∧ (p.y - q.y) ^ 2 = 0 ∧ (p.z - q.z) ^ 2 = 0 := by
      constructor
      · nlinarith [sq_nonneg (p.x - q.x), sq_nonneg (p.y - q.y), sq_nonneg (p.z - q.z)]
      constructor
      · nlinarith [sq_nonneg (p.x - q.x), sq_nonneg (p.y - q.y), sq_nonneg (p.z - q.z)]
      · nlinarith [sq_nonneg (p.x - q.x), sq_nonneg (p.y - q.y), sq_nonneg (p.z - q.z)]
    apply h
    ext
    · nlinarith [hx.1]
    · nlinarith [hx.2.1]
    · nlinarith [hx.2.2]
  · exact Real.sqrt_pos.mpr hlt

theorem sqrt_dist3_pos (p q : P3) (h : p ≠ q) : 0 < Real.sqrt (dist3 p q) :=
  Real.sqrt_pos.mpr (dist3_pos p q h)

/-! ## Endpoint values of a Catmull-Rom window

With strictly increasing knots, the blend cascade hits the control points at
the knot parameters. -/

theorem intermediate_left (c : CentripetalCatmullRom) (i j : ℕ) (p q : P3)
    (h : c.knot j ≠ c.knot i) :
    c.intermediate i j p q (c.knot i) = p := by
  have hne : c.knot j - c.knot i ≠ 0 := sub_ne_zero.mpr h
  ext <;> simp [CentripetalCatmullRom.intermediate, sub_self, div_self hne] <;> ring

theorem intermediate_right (c : CentripetalCatmullRom) (i j : ℕ) (p q : P3)
    (h : c.knot j ≠ c.knot i) :
    c.intermediate i j p q (c.knot j) = q := by
  have hne : c.knot j - c.knot i ≠ 0 := sub_ne_zero.mpr h
  ext <;> simp [CentripetalCatmullRom.intermediate, sub_self, div_self hne] <;> ring

theorem intermediate_same (c : CentripetalCatmullRom) (i j : ℕ) (p : P3) (t : ℝ)
    (h : c.knot j ≠ c.knot i) :
    c.intermediate i j p p t = p := by
  have hne : c.knot j - c.knot i ≠ 0 := sub_ne_zero.mpr h
  ext <;> simp [CentripetalCatmullRom.intermediate] <;> field_simp <;> ring

theorem compute_knot0 (c : CentripetalCatmullRom)
    (h10 : c.knot 1 ≠ c.knot 0) (h20 : c.knot 2 ≠ c.knot 0) (h30 : c.knot 3 ≠ c.knot 0) :
    c.compute (c.knot 0) true = c.pt 0 := by
  simp only [CentripetalCatmullRom.compute, if_pos]
  rw [intermediate_left _ _ _ _ _ h10, intermediate_left _ _ _ _ _ h20,
    intermediate_left _ _ _ _ _ h30]

theorem compute_knot1 (c : CentripetalCatmullRom)
    (h10 : c.knot 1 ≠ c.knot 0) (h21 : c.knot 2 ≠ c.knot 1)
    (h20 : c.knot 2 ≠ c.knot 0) (h31 : c.knot 3 ≠ c.knot 1) :
    c.compute (c.knot 1) false = c.pt 1 := by
  simp only [CentripetalCatmullRom.compute, Bool.false_eq_true, if_neg, if_false]
  rw [intermediate_right _ _ _ _ _ h10, intermediate_left _ _ _ _ _ h21,
    intermediate_left _ _ _ _ _ h21, intermediate_same _ _ _ _ _ h20]

theorem compute_knot2 (c : CentripetalCatmullRom)
    (h21 : c.knot 2 ≠ c.knot 1) (h32 : c.knot 3 ≠ c.knot 2)
    (h20 : c.knot 2 ≠ c.knot 0) (h31 : c.knot 3 ≠ c.knot 1) (h30 : c.knot 3 ≠ c.knot 0) :
    c.compute (c.knot 2) true = c.pt 2 := by
  simp only [CentripetalCatmullRom.compute, if_pos]
  rw [intermediate_right _ _ _ _ _ h21, intermediate_left _ _ _ _ _ h32,
    intermediate_right _ _ _ _ _ h20, intermediate_same _ _ _ _ _ h31,
    intermediate_same _ _ _ _ _ h30]

theorem compute_knot3 (c : CentripetalCatmullRom)
    (h32 : c.knot 3 ≠ c.knot 2) (h31 : c.knot 3 ≠ c.knot 1) (h30 : c.knot 3 ≠ c.knot 0) :
    c.compute (c.knot 3) true = c.pt 3 := by
  simp only [CentripetalCatmullRom.compute, if_pos]
  rw [intermediate_right _ _ _ _ _ h32, intermediate_right _ _ _ _ _ h31,
    intermediate_right _ _ _ _ _ h30]

theorem new_knot_vals (p0 p1 p2 p3 : P3) :
    (CentripetalCatmullRom.new p0 p1 p2 p3).knot 0 = 0 ∧
    (CentripetalCatmullRom.new p0 p1 p2 p3).knot 1 = Real.sqrt (dist3 p1 p0) ∧
    (CentripetalCatmullRom.new p0 p1 p2 p3).knot 2 =
      Real.sqrt (dist3 p2 p1) + Real.sqrt (dist3 p1 p0) ∧
    (CentripetalCatmullRom.new p0 p1 p2 p3).knot 3 =
      Real.sqrt (dist3 p3 p2) + (Real.sqrt (dist3 p2 p1) + Real.sqrt (dist3 p1 p0)) := by
  refine ⟨?_, ?_, ?_, ?_⟩ <;> simp [CentripetalCatmullRom.new, CentripetalCatmullRom.knot]

theorem new_pt_vals (p0 p1 p2 p3 : P3) :
    (CentripetalCatmullRom.new p0 p1 p2 p3).pt 0 = p0 ∧
    (CentripetalCatmullRom.new p0 p1 p2 p3).pt 1 = p1 ∧
    (CentripetalCatmullRom.new p0 p1 p2 p3).pt 2 = p2 ∧
    (CentripetalCatmullRom.new p0 p1 p2 p3).pt 3 = p3 := by
  refine ⟨?_, ?_, ?_, ?_⟩ <;> simp [CentripetalCatmullRom.new, CentripetalCatmullRom.pt]

theorem new_knots_lt (p0 p1 p2 p3 : P3) (h1 : p1 ≠ p0) (h2 : p2 ≠ p1) (h3 : p3 ≠ p2) :
    (CentripetalCatmullRom.new p0 p1 p2 p3).knot 0 < (CentripetalCatmullRom.new p0 p1 p2 p3).knot 1 ∧
    (CentripetalCatmullRom.new p0 p1 p2 p3).knot 1 < (CentripetalCatmullRom.new p0 p1 p2 p3).knot 2 ∧
    (CentripetalCatmullRom.new p0 p1 p2 p3).knot 2 < (CentripetalCatmullRom.new p0 p1 p2 p3).knot 3 := by
  obtain ⟨k0, k1, k2, k3⟩ := new_knot_vals p0 p1 p2 p3
  have s1 := sqrt_dist3_pos p1 p0 h1
  have s2 := sqrt_dist3_pos p2 p1 h2
  have s3 := sqrt_dist3_pos p3 p2 h3
  rw [k0, k1, k2, k3]
  refine ⟨s1, by linarith, by linarith⟩

/-- The four endpoint samples of one window of `Spline::new`, for distinct
consecutive control points: sampling a segment at fraction 0 (or the last
segment at 1) returns a control point exactly. -/
theorem new_atFrac_endpoints (p0 p1 p2 p3 : P3)
    (h1 : p1 ≠ p0) (h2 : p2 ≠ p1) (h3 : p3 ≠ p2) :
    (CentripetalCatmullRom.new p0 p1 p2 p3).atFrac 0 Segment.First = p0 ∧
    (CentripetalCatmullRom.new p0 p1 p2 p3).atFrac 0 Segment.Middle = p1 ∧
    (CentripetalCatmullRom.new p0 p1 p2 p3).atFrac 0 Segment.Last = p2 ∧
    (CentripetalCatmullRom.new p0 p1 p2 p3).atFrac 1 Segment.Last = p3 := by
  set c := CentripetalCatmullRom.new p0 p1 p2 p3 with hc
  obtain ⟨l01, l12, l23⟩ := new_knots_lt p0 p1 p2 p3 h1 h2 h3
  have n10 : c.knot 1 ≠ c.knot 0 := ne_of_gt l01
  have n21 : c.knot 2 ≠ c.knot 1 := ne_of_gt l12
  have n32 : c.knot 3 ≠ c.knot 2 := ne_of_gt l23
  have n20 : c.knot 2 ≠ c.knot 0 := ne_of_gt (lt_trans l01 l12)
  have n31 : c.knot 3 ≠ c.knot 1 := ne_of_gt (lt_trans l12 l23)
  have n30 : c.knot 3 ≠ c.knot 0 := ne_of_gt (lt_trans (lt_trans l01 l12) l23)
  obtain ⟨e0, e1, e2, e3⟩ := new_pt_vals p0 p1 p2 p3
  refine ⟨?_, ?_, ?_, ?_⟩
  · have ht : c.knot 0 + (0:ℝ) * (c.knot (0 + 1) - c.knot 0) = c.knot 0 := by ring
    simp only [CentripetalCatmullRom.atFrac, Segment.index, ht]
    rw [show (decide ¬Segment.First = Segment.Middle) = true from rfl]
    rw [compute_knot0 c n10 n20 n30, e0]
  · have ht : c.knot 1 + (0:ℝ) * (c.knot (1 + 1) - c.knot 1) = c.knot 1 := by ring
    simp only [CentripetalCatmullRom.atFrac, Segment.index, ht]
    rw [show (decide ¬Segment.Middle = Segment.Middle) = false from rfl]
    rw [compute_knot1 c n10 n21 n20 n31, e1]
  · have ht : c.knot 2 + (0:ℝ) * (c.knot (2 + 1) - c.knot 2) = c.knot 2 := by ring
    simp only [CentripetalCatmullRom.atFrac, Segment.index, ht]
    rw [show (decide ¬Segment.Last = Segment.Middle) = true from rfl]
    rw [compute_knot2 c n21 n32 n20 n31 n30, e2]
  · have ht : c.knot 2 + (1:ℝ) * (c.knot (2 + 1) - c.knot 2) = c.knot 3 := by
      have : (2:ℕ) + 1 = 3 := rfl
      rw [this]; ring
    simp only [CentripetalCatmullRom.atFrac, Segment.index, ht]
    rw [show (decide ¬Segment.Last = Segment.Middle) = true from rfl]
    rw [compute_knot3 c n32 n31 n30, e3]

/-! ## Counting the cached samples -/

theorem sample_length (c : CentripetalCatmullRom) (seg : Segment) (res : ℕ) (atEnd : Bool) :
    (c.sample seg res atEnd).length = res + (if atEnd then 1 else 0) := by
  rw [CentripetalCatmullRom.sample, List.length_append, List.length_map, List.length_range]
  cases atEnd <;> simp

theorem countMultAux_chain (l : List P3) : ∀ (prev : P3) (m : ℕ),
    List.Chain' (fun a b => a ≠ b) (prev :: l) →
    countMultAux prev m l = (prev, m) :: l.map (fun p => (p, 1)) := by
  induction l with
  | nil => intro prev m _; rfl
  | cons a rest ih =>
    intro prev m h
    rw [List.chain'_cons] at h
    have hne : ¬(a = prev) := fun hadg => h.1 hadg.symm
    rw [countMultAux, if_neg hne, ih a 1 h.2]
    rfl

theorem countMultiplicity_chain (l : List P3) (h : List.Chain' (fun a b => a ≠ b) l) :
    countMultiplicity l = l.map (fun p => (p, 1)) := by
  cases l with
  | nil => rfl
  | cons p rest => rw [countMultiplicity, countMultAux_chain rest p 1 h]; rfl

theorem list_sum_range (f : ℕ → ℕ) (m : ℕ) :
    ((List.range m).map f).sum = ∑ i ∈ Finset.range m, f i := by
  induction m with
  | zero => simp
  | succ k ih => rw [List.range_succ, Finset.sum_range_succ, List.map_append, List.sum_append, ih]; simp

theorem sum_range_ite (m a b c : ℕ) (hm : 1 ≤ m) :
    ∑ i ∈ Finset.range m, ((if i = 0 then a else 0) + b + (if i = m - 1 then c else 0)) =
      a + m * b + c := by
  have h0 : 0 < m := hm
  have h1 : m - 1 < m := by omega
  rw [Finset.sum_add_distrib, Finset.sum_add_distrib]
  rw [Finset.sum_ite_eq' (Finset.range m) 0 (fun _ => a)]
  rw [Finset.sum_ite_eq' (Finset.range m) (m - 1) (fun _ => c)]
  simp [Finset.mem_range, h0, h1, mul_comm]

theorem splineChunk_length_of_ones (rp : List (P3 × ℕ)) (res : ℕ)
    (hm : ∀ pm ∈ rp, pm.2 = 1) (i : ℕ) (hi : i < rp.length - 3) :
    (splineChunk rp res i).length =
      (if i = 0 then res else 0) + res + (if i = rp.length - 4 then res + 1 else 0) := by
  have hn : i + 3 < rp.length := by omega
  have hmult : ∀ j, j < rp.length → (rp.getD j default).2 = 1 := by
    intro j hj
    have : rp.getD j default ∈ rp := by
      rw [List.getD_eq_getElem?_getD, List.getElem?_eq_getElem hj]
      exact List.getElem_mem _
    exact hm _ this
  have hrep : ∀ j, j < rp.length → (repeatPt (rp.getD j default) res).length = 0 := by
    intro j hj
    rw [repeatPt, List.length_replicate, hmult j hj]
    simp
  rw [splineChunk]
  simp only [List.length_append, List.length_nil, sample_length]
  rw [hrep (i + 1) (by omega)]
  by_cases h0 : i = 0 <;> by_cases hlast : i = rp.length - 4
  · rw [if_pos h0, if_pos hlast, if_pos h0, if_pos hlast]
    simp only [List.length_append, sample_length]
    rw [hrep i (by omega), hrep (i + 2) (by omega), hrep (i + 3) (by omega)]
    simp
  · rw [if_pos h0, if_neg hlast, if_pos h0, if_neg hlast]
    simp only [List.length_append, sample_length]
    rw [hrep i (by omega)]
    simp
  · rw [if_neg h0, if_pos hlast, if_neg h0, if_pos hlast]
    simp only [List.length_append, sample_length]
    rw [hrep (i + 2) (by omega), hrep (i + 3) (by omega)]
    simp
  · rw [if_neg h0, if_neg hlast, if_neg h0, if_neg hlast]
    simp

theorem splinePoints_length_of_ones (rp : List (P3 × ℕ)) (res : ℕ)
    (hm : ∀ pm ∈ rp, pm.2 = 1) (h4 : 4 ≤ rp.length) :
    (splinePoints rp res).length = res * (rp.length - 1) + 1 := by
  rw [splinePoints, List.length_flatMap]
  have hmap : List.map (List.length ∘ splineChunk rp res) (List.range (rp.length - 3)) =
      List.map (fun i => (if i = 0 then res else 0) + res +
        (if i = rp.length - 4 then res + 1 else 0)) (List.range (rp.length - 3)) := by
    apply List.map_congr_left
    intro i hi
    simp only [Function.comp_apply]
    exact splineChunk_length_of_ones rp res hm i (List.mem_range.mp hi)
  rw [hmap, list_sum_range, show rp.length - 4 = (rp.length - 3) - 1 by omega,
    sum_range_ite _ _ _ _ (by omega)]
  have h2 : rp.length - 1 = (rp.length - 3) + 2 := by omega
  rw [h2]
  ring

/-! ## First and last cached samples -/

theorem sample_head (c : CentripetalCatmullRom) (seg : Segment) (res : ℕ) (hres : 1 ≤ res)
    (atEnd : Bool) :
    (c.sample seg res atEnd).head? = some (c.atFrac 0 seg) := by
  rw [CentripetalCatmullRom.sample]
  obtain ⟨k, rfl⟩ : ∃ k, res = k + 1 := ⟨res - 1, by omega⟩
  rw [List.range_succ_eq_map, List.map_cons]
  rw [List.cons_append, List.head?_cons]
  norm_num

theorem sample_ne_nil (c : CentripetalCatmullRom) (seg : Segment) (res : ℕ) (hres : 1 ≤ res)
    (atEnd : Bool) : c.sample seg res atEnd ≠ [] := by
  apply List.ne_nil_of_length_pos
  rw [sample_length]
  omega

theorem sample_true_getLast (c : CentripetalCatmullRom) (seg : Segment) (res : ℕ) :
    (c.sample seg res true).getLast? = some (c.atFrac 1 seg) := by
  rw [CentripetalCatmullRom.sample, if_pos rfl]
  rw [List.getLast?_append_of_ne_nil _ (by simp)]
  rfl

theorem sample_true_ne_nil (c : CentripetalCatmullRom) (seg : Segment) (res : ℕ) :
    c.sample seg res true ≠ [] := by
  apply List.ne_nil_of_length_pos
  rw [sample_length]
  simp

theorem repeatPt_of_one (pm : P3 × ℕ) (res : ℕ) (h : pm.2 = 1) : repeatPt pm res = [] := by
  rw [repeatPt, h]
  simp

theorem splineChunk_head (rp : List (P3 × ℕ)) (res : ℕ) (hres : 1 ≤ res)
    (h0 : (rp.getD 0 default).2 = 1) :
    (splineChunk rp res 0).head? =
      some ((CentripetalCatmullRom.new (rp.getD 0 default).1 (rp.getD 1 default).1
        (rp.getD 2 default).1 (rp.getD 3 default).1).atFrac 0 Segment.First) := by
  rw [splineChunk]
  simp only [eq_self_iff_true, if_true]
  rw [repeatPt_of_one _ _ h0, List.nil_append]
  rw [List.head?_append_of_ne_nil _ (by
    apply List.ne_nil_of_length_pos
    rw [List.length_append, List.length_append, sample_length]
    omega)]
  rw [List.head?_append_of_ne_nil _ (by
    apply List.ne_nil_of_length_pos
    rw [List.length_append, sample_length]
    omega)]
  rw [List.head?_append_of_ne_nil _ (sample_ne_nil _ _ _ hres _)]
  rw [sample_head _ _ _ hres]

theorem splineChunk_getLast (rp : List (P3 × ℕ)) (res : ℕ) (h4 : 4 ≤ rp.length)
    (h2 : (rp.getD (rp.length - 2) default).2 = 1)
    (h1 : (rp.getD (rp.length - 1) default).2 = 1) :
    (splineChunk rp res (rp.length - 4)).getLast? =
      some ((CentripetalCatmullRom.new (rp.getD (rp.length - 4) default).1
        (rp.getD (rp.length - 4 + 1) default).1
        (rp.getD (rp.length - 4 + 2) default).1
        (rp.getD (rp.length - 4 + 3) default).1).atFrac 1 Segment.Last) := by
  rw [splineChunk]
  simp only [eq_self_iff_true, if_true]
  have e2 : rp.length - 4 + 2 = rp.length - 2 := by omega
  have e3 : rp.length - 4 + 3 = rp.length - 1 := by omega
  rw [List.getLast?_append_of_ne_nil _ (by
    rw [e2, e3, repeatPt_of_one _ _ h2, repeatPt_of_one _ _ h1, List.nil_append,
      List.append_nil]
    exact sample_true_ne_nil _ _ _)]
  rw [e2, e3, repeatPt_of_one _ _ h2, repeatPt_of_one _ _ h1, List.nil_append,
    List.append_nil]
  rw [sample_true_getLast]

theorem splinePoints_head (rp : List (P3 × ℕ)) (res : ℕ) (h4 : 4 ≤ rp.length)
    (hres : 1 ≤ res) (h0 : (rp.getD 0 default).2 = 1) :
    (splinePoints rp res).head? =
      some ((CentripetalCatmullRom.new (rp.getD 0 default).1 (rp.getD 1 default).1
        (rp.getD 2 default).1 (rp.getD 3 default).1).atFrac 0 Segment.First) := by
  rw [splinePoints]
  obtain ⟨k, hk⟩ : ∃ k, rp.length - 3 = k + 1 := ⟨rp.length - 4, by omega⟩
  rw [hk, List.range_succ_eq_map, List.flatMap_cons]
  rw [List.head?_append_of_ne_nil _ (by
    apply List.ne_nil_of_length_pos
    have := splineChunk_head rp res hres h0
    cases hchunk : splineChunk rp res 0 with
    | nil => rw [hchunk] at this; simp at this
    | cons a t => simp)]
  exact splineChunk_head rp res hres h0

theorem splinePoints_getLast (rp : List (P3 × ℕ)) (res : ℕ) (h4 : 4 ≤ rp.length)
    (h2 : (rp.getD (rp.length - 2) default).2 = 1)
    (h1 : (rp.getD (rp.length - 1) default).2 = 1) :
    (splinePoints rp res).getLast? =
      some ((CentripetalCatmullRom.new (rp.getD (rp.length - 4) default).1
        (rp.getD (rp.length - 4 + 1) default).1
        (rp.getD (rp.length - 4 + 2) default).1
        (rp.getD (rp.length - 4 + 3) default).1).atFrac 1 Segment.Last) := by
  rw [splinePoints]
  obtain ⟨k, hk⟩ : ∃ k, rp.length - 3 = k + 1 := ⟨rp.length - 4, by omega⟩
  rw [hk, List.range_succ, List.flatMap_append, List.flatMap_cons, List.flatMap_nil,
    List.append_nil]
  have hkval : k = rp.length - 4 := by omega
  rw [List.getLast?_append_of_ne_nil _ (by
    rw [hkval]
    have := splineChunk_getLast rp res h4 h2 h1
    intro hnil
    rw [hnil] at this
    simp at this)]
  rw [hkval]
  exact splineChunk_getLast rp res h4 h2 h1

theorem getD_map_pair (pts : List P3) (j : ℕ) (hj : j < pts.length) :
    (pts.map (fun p => (p, 1))).getD j default = (pts.getD j default, 1) := by
  rw [List.getD_eq_getElem _ _ (by simpa using hj), List.getD_eq_getElem _ _ hj,
    List.getElem_map]

theorem pairwise_getD_ne (pts : List P3) (h : pts.Pairwise (fun a b => a ≠ b))
    (i j : ℕ) (hij : i < j) (hj : j < pts.length) :
    pts.getD i default ≠ pts.getD j default := by
  rw [List.getD_eq_getElem _ _ (lt_trans hij hj), List.getD_eq_getElem _ _ hj]
  exact List.pairwise_iff_getElem.mp h i j _ _ hij

theorem head_eq_getD (l : List P3) (h : l ≠ []) : l.head? = some (l.getD 0 default) := by
  cases l with
  | nil => exact absurd rfl h
  | cons a t => rfl

theorem getLast_eq_getD (l : List P3) (h : l ≠ []) :
    l.getLast? = some (l.getD (l.length - 1) default) := by
  rw [List.getLast?_eq_getLast l h,
    List.getD_eq_getElem _ _ (by simp [List.length_pos.mpr h]), List.getLast_eq_getElem]

theorem spline_new_unfold (pts : List P3) (res : ℕ)
    (h : ¬ (countMultiplicity pts).length < 4) :
    Spline.new pts res = some ⟨splinePoints (countMultiplicity pts) res⟩ := by
  simp only [Spline.new]
  rw [if_neg h]

/-- For at least 4 pairwise-distinct reference points and a positive
resolution, `Spline::new` succeeds and its cached polyline has exactly
`res * (N - 1) + 1` samples, starting at the first reference point and ending
at the last. -/
theorem spline_new_spec (pts : List P3) (res : ℕ)
    (h4 : 4 ≤ pts.length) (hdist : pts.Pairwise (fun a b => a ≠ b)) (hres : 1 ≤ res) :
    ∃ s : Spline, Spline.new pts res = some s ∧
      s.points.length = res * (pts.length - 1) + 1 ∧
      s.points.head? = pts.head? ∧
      s.points.getLast? = pts.getLast? := by
  have hrp : countMultiplicity pts = pts.map (fun p => (p, 1)) :=
    countMultiplicity_chain pts hdist.chain'
  have hlen : (countMultiplicity pts).length = pts.length := by rw [hrp, List.length_map]
  have hne : pts ≠ [] := by
    intro hnil
    rw [hnil] at h4
    simp at h4
  have hm : ∀ pm ∈ countMultiplicity pts, pm.2 = 1 := by
    intro pm hpm
    rw [hrp] at hpm
    obtain ⟨p, _, rfl⟩ := List.mem_map.mp hpm
    rfl
  refine ⟨⟨splinePoints (countMultiplicity pts) res⟩, spline_new_unfold pts res (by omega),
    ?_, ?_, ?_⟩
  · rw [splinePoints_length_of_ones _ _ hm (by omega), hlen]
  · rw [splinePoints_head _ _ (by omega) hres (by rw [hrp, getD_map_pair _ _ (by omega)])]
    rw [hrp, getD_map_pair _ _ (by omega), getD_map_pair _ _ (by omega),
      getD_map_pair _ _ (by omega), getD_map_pair _ _ (by omega)]
    rw [(new_atFrac_endpoints _ _ _ _
      (pairwise_getD_ne pts hdist 0 1 (by omega) (by omega)).symm
      (pairwise_getD_ne pts hdist 1 2 (by omega) (by omega)).symm
      (pairwise_getD_ne pts hdist 2 3 (by omega) (by omega)).symm).1]
    rw [head_eq_getD pts hne]
  · rw [splinePoints_getLast _ _ (by omega)
      (by rw [hrp, List.length_map, getD_map_pair _ _ (by omega)])
      (by rw [hrp, List.length_map, getD_map_pair _ _ (by omega)])]
    rw [hlen, hrp, getD_map_pair _ _ (by omega), getD_map_pair _ _ (by omega),
      getD_map_pair _ _ (by omega), getD_map_pair _ _ (by omega)]
    rw [(new_atFrac_endpoints _ _ _ _
      (pairwise_getD_ne pts hdist (pts.length - 4) (pts.length - 4 + 1) (by omega) (by omega)).symm
      (pairwise_getD_ne pts hdist (pts.length - 4 + 1) (pts.length - 4 + 2) (by omega) (by omega)).symm
      (pairwise_getD_ne pts hdist (pts.length - 4 + 2) (pts.length - 4 + 3) (by omega) (by omega)).symm).2.2.2]
    rw [getLast_eq_getD pts hne, show pts.length - 4 + 3 = pts.length - 1 by omega]

/-! ## Concrete inputs used by counterexamples and witnesses -/

/-- Four distinct points along the fore-aft (x) axis. -/
def exX : List P3 := [⟨0, 0, 0⟩, ⟨1, 0, 0⟩, ⟨2, 0, 0⟩, ⟨3, 0, 0⟩]

/-- Four distinct points along the vertical (z) axis. -/
def exZ : List P3 := [⟨0, 0, 0⟩, ⟨0, 0, 1⟩, ⟨0, 0, 2⟩, ⟨0, 0, 3⟩]

theorem exX_length : exX.length = 4 := rfl

theorem exX_pairwise : exX.Pairwise (fun a b => a ≠ b) := by
  norm_num [exX, List.pairwise_cons, P3.mk.injEq]

theorem exZ_length : exZ.length = 4 := rfl

theorem exZ_pairwise : exZ.Pairwise (fun a b => a ≠ b) := by
  norm_num [exZ, List.pairwise_cons, P3.mk.injEq]

/-! ## Claim C1 -/

/-- C1, as stated, is false: a spline built from the 4 distinct points of
`exX` at resolution 1 caches 4 samples, not `1 * (4 - 3) + 1 = 2`. -/
theorem c1_count_counterexample :
    ∃ s : Spline, Spline.new exX 1 = some s ∧
      s.points.length ≠ 1 * (exX.length - 3) + 1 := by
  obtain ⟨s, hs, hlen, -, -⟩ :=
    spline_new_spec exX 1 (by rw [exX_length]) exX_pairwise (by norm_num)
  refine ⟨s, hs, ?_⟩
  rw [hlen, exX_length]
  norm_num

/-- C1 (amended): a `Spline` built from `N ≥ 4` pairwise-distinct points at
resolution `R ≥ 1` caches exactly `R * (N - 1) + 1` samples (not
`R * (N - 3) + 1`), the first being the first input reference point and the
last the last one. -/
theorem c1_spline_sample_count (pts : List P3) (res : ℕ)
    (h4 : 4 ≤ pts.length) (hdist : pts.Pairwise (fun a b => a ≠ b)) (hres : 1 ≤ res) :
    ∃ s : Spline, Spline.new pts res = some s ∧
      s.points.length = res * (pts.length - 1) + 1 ∧
      s.points.head? = pts.head? ∧
      s.points.getLast? = pts.getLast? :=
  spline_new_spec pts res h4 hdist hres

/-- C1 witness: the amended count at the concrete input `exX`, resolution 1. -/
theorem c1_spline_sample_count_witness :
    ∃ s : Spline, Spline.new exX 1 = some s ∧
      s.points.length = 1 * (exX.length - 1) + 1 ∧
      s.points.head? = exX.head? ∧
      s.points.getLast? = exX.getLast? :=
  c1_spline_sample_count exX 1 (by rw [exX_length]) exX_pairwise (by norm_num)

/-! ## Claim C4 -/

/-- What `Spline::new` actually does with a doubled first point: the
multiplicity-2 entry makes `repeat` emit `resolution` extra copies of `P` in
front; everything else (windows, knots, samples) is unchanged. -/
theorem spline_new_dup (P Q R S : P3) (res : ℕ)
    (hPQ : Q ≠ P) (hQR : R ≠ Q) (hRS : S ≠ R) :
    ∃ s5 s4 : Spline, Spline.new [P, P, Q, R, S] res = some s5 ∧
      Spline.new [P, Q, R, S] res = some s4 ∧
      s5.points = List.replicate res P ++ s4.points := by
  have h5 : countMultiplicity [P, P, Q, R, S] = [(P, 2), (Q, 1), (R, 1), (S, 1)] := by
    simp [countMultiplicity, countMultAux, hPQ, hQR, hRS]
  have h4 : countMultiplicity [P, Q, R, S] = [(P, 1), (Q, 1), (R, 1), (S, 1)] := by
    simp [countMultiplicity, countMultAux, hPQ, hQR, hRS]
  refine ⟨⟨splinePoints (countMultiplicity [P, P, Q, R, S]) res⟩,
    ⟨splinePoints (countMultiplicity [P, Q, R, S]) res⟩,
    spline_new_unfold _ _ (by rw [h5]; norm_num),
    spline_new_unfold _ _ (by rw [h4]; norm_num), ?_⟩
  rw [h5, h4]
  rw [splinePoints, splinePoints]
  rw [show List.range ([(P, 2), (Q, 1), (R, 1), (S, 1)].length - 3) = [0] from rfl,
    show List.range ([(P, 1), (Q, 1), (R, 1), (S, 1)].length - 3) = [0] from rfl,
    List.flatMap_cons, List.flatMap_nil, List.flatMap_cons, List.flatMap_nil]
  simp [splineChunk, repeatPt, List.append_assoc]

/-- C4, as stated, is false: at resolution 1, `[P,P,Q,R,S]` caches one extra
copy of `P` in front, so the two cached polylines differ. -/
theorem c4_dedup_counterexample :
    ∃ s5 s4 : Spline,
      Spline.new [⟨0, 0, 0⟩, ⟨0, 0, 0⟩, ⟨1, 0, 0⟩, ⟨2, 0, 0⟩, ⟨3, 0, 0⟩] 1 = some s5 ∧
      Spline.new [⟨0, 0, 0⟩, ⟨1, 0, 0⟩, ⟨2, 0, 0⟩, ⟨3, 0, 0⟩] 1 = some s4 ∧
      s5.points ≠ s4.points := by
  obtain ⟨s5, s4, h5, h4, heq⟩ :=
    spline_new_dup ⟨0, 0, 0⟩ ⟨1, 0, 0⟩ ⟨2, 0, 0⟩ ⟨3, 0, 0⟩ 1
      (by simp [P3.mk.injEq]) (by norm_num [P3.mk.injEq]) (by norm_num [P3.mk.injEq])
  refine ⟨s5, s4, h5, h4, ?_⟩
  intro hcontra
  have : s5.points.length = s4.points.length := by rw [hcontra]
  rw [heq, List.length_append, List.length_replicate] at this
  omega

/-- C4 (amended): for pairwise-distinct `P, Q, R, S` and any resolution `R`,
building a `Spline` from `[P,P,Q,R,S]` produces the cached polyline of
`[P,Q,R,S]` with `R` extra copies of `P` prepended — not the same polyline. -/
theorem c4_dedup_equivalence (P Q R S : P3) (res : ℕ)
    (hPQ : Q ≠ P) (hQR : R ≠ Q) (hRS : S ≠ R) :
    ∃ s5 s4 : Spline, Spline.new [P, P, Q, R, S] res = some s5 ∧
      Spline.new [P, Q, R, S] res = some s4 ∧
      s5.points = List.replicate res P ++ s4.points :=
  spline_new_dup P Q R S res hPQ hQR hRS

/-- C4 witness: the amended relation at a concrete input. -/
theorem c4_dedup_equivalence_witness :
    ∃ s5 s4 : Spline,
      Spline.new [⟨0, 0, 0⟩, ⟨0, 0, 0⟩, ⟨0, 0, 1⟩, ⟨0, 0, 2⟩, ⟨0, 0, 3⟩] 2 = some s5 ∧
      Spline.new [⟨0, 0, 0⟩, ⟨0, 0, 1⟩, ⟨0, 0, 2⟩, ⟨0, 0, 3⟩] 2 = some s4 ∧
      s5.points = List.replicate 2 (⟨0, 0, 0⟩ : P3) ++ s4.points :=
  c4_dedup_equivalence ⟨0, 0, 0⟩ ⟨0, 0, 1⟩ ⟨0, 0, 2⟩ ⟨0, 0, 3⟩ 2
    (by norm_num [P3.mk.injEq]) (by norm_num [P3.mk.injEq]) (by norm_num [P3.mk.injEq])

/-! ## Resolution-1 splines hit exactly the reference points -/

theorem sample_one_false (c : CentripetalCatmullRom) (seg : Segment) :
    c.sample seg 1 false = [c.atFrac 0 seg] := by
  rw [CentripetalCatmullRom.sample]
  rw [show List.range 1 = [0] from rfl]
  norm_num

theorem sample_one_true (c : CentripetalCatmullRom) (seg : Segment) :
    c.sample seg 1 true = [c.atFrac 0 seg, c.atFrac 1 seg] := by
  rw [CentripetalCatmullRom.sample]
  rw [show List.range 1 = [0] from rfl]
  norm_num

/-- At resolution 1, a spline over exactly 4 distinct points caches exactly
those 4 points: each segment sample hits a knot. -/
theorem spline_new_res1 (A B C D : P3) (hAB : B ≠ A) (hBC : C ≠ B) (hCD : D ≠ C) :
    Spline.new [A, B, C, D] 1 = some ⟨[A, B, C, D]⟩ := by
  have h4 : countMultiplicity [A, B, C, D] = [(A, 1), (B, 1), (C, 1), (D, 1)] := by
    simp [countMultiplicity, countMultAux, hAB, hBC, hCD]
  rw [spline_new_unfold _ _ (by rw [h4]; norm_num), h4]
  obtain ⟨e1, e2, e3, e4⟩ := new_atFrac_endpoints A B C D hAB hBC hCD
  rw [splinePoints,
    show List.range ([(A, 1), (B, 1), (C, 1), (D, 1)].length - 3) = [0] from rfl,
    List.flatMap_cons, List.flatMap_nil]
  simp only [splineChunk, repeatPt]
  norm_num [sample_one_false, sample_one_true]
  rw [e1, e2, e3, e4]
  exact ⟨rfl, rfl, rfl, rfl⟩

/-! ## Claim C3 -/

/-- The claim's reading of `length()`: sum of the full 3-d euclidean distances
between consecutive cached samples. -/
def consecutiveDistSum3 (pts : List P3) : ℝ :=
  ((pts.zip pts.tail).map (fun pq => dist3 pq.1 pq.2)).sum

/-- What the code computes: the same sum after `project_points(Axis::X, ..)`,
i.e. with the fore-aft coordinate dropped. -/
def consecutiveDistSum2YZ (pts : List P3) : ℝ :=
  (((projectPoints Axis.X pts).zip (projectPoints Axis.X pts).tail).map
    (fun pq => dist2 pq.1 pq.2)).sum

theorem polyLen2_eq_zip_sum (l : List P2) :
    polyLen2 l = ((l.zip l.tail).map (fun pq => dist2 pq.1 pq.2)).sum := by
  induction l with
  | nil => simp [polyLen2]
  | cons a t ih =>
    cases t with
    | nil => simp [polyLen2]
    | cons b r =>
      rw [polyLen2, ih]
      simp

/-- C3, as stated, is false: the spline through `exX` (4 points along the
fore-aft axis) has `length() = 0`, while the 3-d distances between its cached
samples sum to 3: `length()` measures the polyline only after projecting away
the fore-aft coordinate. -/
theorem c3_length_counterexample :
    ∃ s : Spline, Spline.new exX 1 = some s ∧ s.length ≠ consecutiveDistSum3 s.points := by
  refine ⟨⟨exX⟩, ?_, ?_⟩
  · simp only [exX]
    exact spline_new_res1 _ _ _ _ (by norm_num [P3.mk.injEq]) (by norm_num [P3.mk.injEq])
      (by norm_num [P3.mk.injEq])
  · simp only [exX, Spline.length, consecutiveDistSum3, projectPoints, project,
      List.map_cons, List.map_nil, polyLen2, List.zip_cons_cons, List.tail_cons]
    norm_num [dist2, dist3]

/-- C3 (amended): `length()` is the sum of the distances between consecutive
cached samples measured in the y-z projection (the fore-aft coordinate is
projected away first), not the full 3-d distances. -/
theorem c3_length_is_projected_sum (s : Spline) :
    s.length = consecutiveDistSum2YZ s.points := by
  rw [Spline.length, consecutiveDistSum2YZ, polyLen2_eq_zip_sum]

/-! ## Claim C5: the arc-length walk -/

/-- Remaining projected polyline length from `prev` through `pts`: the
quantity the walk of `at_len` accumulates. -/
def remLen (prev : P3) (pts : List P3) : ℝ :=
  polyLen2 (projectPoints Axis.X (prev :: pts))

/-- The projected length of the final segment of `prev :: pts`. -/
def lastDelta (prev : P3) : List P3 → ℝ
  | [] => 0
  | [p] => projectedDistance Axis.X p prev
  | p :: q :: r => lastDelta p (q :: r)

/-- The projected length of the final segment of a spline's cached polyline. -/
def Spline.lastSegLen (s : Spline) : ℝ :=
  match s.points with
  | [] => 0
  | p :: rest => lastDelta p rest

theorem remLen_nil (prev : P3) : remLen prev [] = 0 := rfl

theorem remLen_cons (prev p : P3) (r : List P3) :
    remLen prev (p :: r) = projectedDistance Axis.X p prev + remLen p r := by
  simp [remLen, projectPoints, polyLen2, projectedDistance]

theorem projectedDistance_nonneg (axis : Axis) (a b : P3) :
    0 ≤ projectedDistance axis a b := dist2_nonneg _ _

theorem remLen_nonneg (prev : P3) (pts : List P3) : 0 ≤ remLen prev pts := by
  induction pts generalizing prev with
  | nil => rw [remLen_nil]
  | cons p r ih =>
    rw [remLen_cons]
    have := projectedDistance_nonneg Axis.X p prev
    have := ih p
    linarith

theorem lastDelta_le_remLen (prev : P3) (pts : List P3) (h : pts ≠ []) :
    lastDelta prev pts ≤ remLen prev pts := by
  induction pts generalizing prev with
  | nil => exact absurd rfl h
  | cons p r ih =>
    cases r with
    | nil =>
      rw [lastDelta, remLen_cons, remLen_nil]
      linarith
    | cons q r' =>
      rw [lastDelta, remLen_cons]
      have := projectedDistance_nonneg Axis.X p prev
      have := ih p (by simp)
      linarith

theorem linearInterpolate_zero (p q : P3) : linearInterpolate 0 p q = p := by
  ext <;> simp [linearInterpolate]

theorem linearInterpolate_one (p q : P3) : linearInterpolate 1 p q = q := by
  ext <;> simp [linearInterpolate]

theorem atLenWalk_isSome (pts : List P3) : ∀ (prev : P3) (len d : ℝ),
    pts ≠ [] → d ≤ len + remLen prev pts → (atLenWalk d len prev pts).isSome := by
  induction pts with
  | nil => intro _ _ _ h _; exact absurd rfl h
  | cons p r ih =>
    intro prev len d _ hd
    rw [atLenWalk]
    by_cases htrig : len + projectedDistance Axis.X p prev ≥ d
    · rw [if_pos htrig]
      by_cases hz : practicallyZero (projectedDistance Axis.X p prev) <;> simp [hz]
    · rw [if_neg htrig]
      cases r with
      | nil =>
        exfalso
        rw [remLen_cons, remLen_nil] at hd
        push_neg at htrig
        linarith
      | cons q r' =>
        apply ih p (len + projectedDistance Axis.X p prev) d (by simp)
        rw [remLen_cons] at hd
        linarith

theorem atLenWalk_none (pts : List P3) : ∀ (prev : P3) (len d : ℝ),
    len + remLen prev pts < d → atLenWalk d len prev pts = none := by
  induction pts with
  | nil => intro _ _ _ _; rfl
  | cons p r ih =>
    intro prev len d hd
    rw [remLen_cons] at hd
    have hrem := remLen_nonneg p r
    rw [atLenWalk, if_neg (by push_neg; linarith)]
    apply ih
    linarith

theorem atLenWalk_zero (prev p : P3) (r : List P3) :
    atLenWalk 0 0 prev (p :: r) = some prev := by
  have hnn := projectedDistance_nonneg Axis.X p prev
  rw [atLenWalk, if_pos (by linarith)]
  by_cases hz : practicallyZero (projectedDistance Axis.X p prev)
  · rw [if_pos hz]
  · rw [if_neg hz]
    norm_num [linearInterpolate_zero]

theorem lastDelta_nonneg (pts : List P3) : ∀ prev : P3, 0 ≤ lastDelta prev pts := by
  induction pts with
  | nil => intro prev; exact le_of_eq rfl
  | cons a t ih =>
    intro prev
    cases t with
    | nil => exact projectedDistance_nonneg Axis.X a prev
    | cons b t' =>
      rw [lastDelta]
      exact ih a

theorem atLenWalk_total (pts : List P3) : ∀ (prev : P3) (len : ℝ),
    pts ≠ [] → ¬practicallyZero (lastDelta prev pts) →
    atLenWalk (len + remLen prev pts) len prev pts = some (pts.getLast?.getD default) := by
  induction pts with
  | nil => intro _ _ h _; exact absurd rfl h
  | cons p r ih =>
    intro prev len _ hz
    cases r with
    | nil =>
      rw [lastDelta] at hz
      have hne : projectedDistance Axis.X p prev ≠ 0 := by
        intro h0
        rw [h0] at hz
        exact hz (by norm_num [practicallyZero])
      rw [remLen_cons, remLen_nil, atLenWalk, if_pos (by linarith)]
      rw [if_neg hz]
      rw [show len + (projectedDistance Axis.X p prev + 0) - len =
        projectedDistance Axis.X p prev by ring, div_self hne, linearInterpolate_one]
      rfl
    | cons q r' =>
      rw [lastDelta] at hz
      have hlast : (0.00000001 : ℝ) ≤ lastDelta p (q :: r') := by
        by_contra hcon
        push_neg at hcon
        apply hz
        rw [practicallyZero, abs_lt]
        constructor
        · have h3 := lastDelta_nonneg (q :: r') p
          linarith
        · exact hcon
      have hpos : 0 < remLen p (q :: r') := by
        have := lastDelta_le_remLen p (q :: r') (by simp)
        linarith
      have hnn := projectedDistance_nonneg Axis.X p prev
      rw [remLen_cons, atLenWalk, if_neg (by push_neg; linarith)]
      have harr : len + (projectedDistance Axis.X p prev + remLen p (q :: r')) =
          (len + projectedDistance Axis.X p prev) + remLen p (q :: r') := by ring
      rw [harr, ih p (len + projectedDistance Axis.X p prev) (by simp) hz]
      simp

/-- C5, as stated, is false: for the spline through `exX` every projected
segment has length zero, so `at_len(length())` stops at the very first
segment and returns the first sample, not the last. -/
theorem c5_roundtrip_counterexample :
    ∃ s : Spline, Spline.new exX 1 = some s ∧ s.atLen s.length ≠ s.points.getLast? := by
  refine ⟨⟨exX⟩, ?_, ?_⟩
  · simp only [exX]
    exact spline_new_res1 _ _ _ _ (by norm_num [P3.mk.injEq]) (by norm_num [P3.mk.injEq])
      (by norm_num [P3.mk.injEq])
  · have hlen : (Spline.mk exX).length = 0 := by
      simp only [Spline.length, exX, projectPoints, project, List.map_cons, List.map_nil,
        polyLen2]
      norm_num [dist2]
    rw [hlen]
    have hwalk : (Spline.mk exX).atLen 0 = some ⟨0, 0, 0⟩ := by
      simp only [Spline.atLen, exX]
      exact atLenWalk_zero _ _ _
    rw [hwalk]
    simp [exX, P3.mk.injEq]

/-- C5 (amended): for a spline whose cached polyline has at least two samples,
`at_len` succeeds on every query in `[0, length()]`, panics (`none`) past
`length()`, returns the first cached sample at 0, and returns the last cached
sample at `length()` provided the final cached segment does not have
practically-zero projected length (when all trailing segments have projected
length zero it stops early, as the counterexample shows). -/
theorem c5_atLen_behaviour (s : Spline) (h2 : 2 ≤ s.points.length) :
    (∀ d : ℝ, 0 ≤ d → d ≤ s.length → (s.atLen d).isSome) ∧
    (∀ d : ℝ, s.length < d → s.atLen d = none) ∧
    s.atLen 0 = s.points.head? ∧
    (¬practicallyZero s.lastSegLen → s.atLen s.length = s.points.getLast?) := by
  obtain ⟨p, q, r, hpts⟩ : ∃ p q r, s.points = p :: q :: r := by
    cases hp : s.points with
    | nil => rw [hp] at h2; simp at h2
    | cons a t =>
      cases ht : t with
      | nil => rw [hp, ht] at h2; simp at h2
      | cons b u =>
        subst ht
        exact ⟨a, b, u, rfl⟩
  have hlen : s.length = remLen p (q :: r) := by
    rw [Spline.length, hpts, remLen]
  have hatlen : ∀ d : ℝ, s.atLen d = atLenWalk d 0 p (q :: r) := by
    intro d
    rw [Spline.atLen, hpts]
  refine ⟨?_, ?_, ?_, ?_⟩
  · intro d h0 hd
    rw [hatlen]
    exact atLenWalk_isSome _ _ _ _ (by simp) (by rw [hlen] at hd; linarith)
  · intro d hd
    rw [hatlen]
    exact atLenWalk_none _ _ _ _ (by rw [hlen] at hd; linarith)
  · rw [hatlen, atLenWalk_zero, hpts, List.head?_cons]
  · intro hz
    have hzl : ¬practicallyZero (lastDelta p (q :: r)) := by
      rw [Spline.lastSegLen, hpts] at hz
      exact hz
    have := atLenWalk_total (q :: r) p 0 (by simp) hzl
    rw [hatlen, hlen, show remLen p (q :: r) = 0 + remLen p (q :: r) by ring, this]
    rw [hpts, List.getLast?_cons_cons]
    obtain ⟨x, hx⟩ : ∃ x, (q :: r).getLast? = some x :=
      ⟨(q :: r).getLast (by simp), List.getLast?_eq_getLast _ (by simp)⟩
    rw [hx]
    rfl

/-- C5 witness: the amended behaviour at the concrete spline through `exZ`,
whose final cached segment has projected length 1. -/
theorem c5_atLen_behaviour_witness :
    (∀ d : ℝ, 0 ≤ d → d ≤ (Spline.mk exZ).length → ((Spline.mk exZ).atLen d).isSome) ∧
    (∀ d : ℝ, (Spline.mk exZ).length < d → (Spline.mk exZ).atLen d = none) ∧
    (Spline.mk exZ).atLen 0 = (Spline.mk exZ).points.head? ∧
    (¬practicallyZero (Spline.mk exZ).lastSegLen →
      (Spline.mk exZ).atLen (Spline.mk exZ).length = (Spline.mk exZ).points.getLast?) :=
  c5_atLen_behaviour ⟨exZ⟩ (by norm_num [exZ])

/-! ## Claim C2: the concrete triangulation test -/

theorem dist2_val_14_11 : dist2 ⟨1, 4⟩ ⟨1, 1⟩ = 3 := by
  rw [dist2, show ((⟨1, 4⟩ : P2).x - (⟨1, 1⟩ : P2).x) ^ 2 +
    ((⟨1, 4⟩ : P2).y - (⟨1, 1⟩ : P2).y) ^ 2 = 3 ^ 2 by norm_num,
    Real.sqrt_sq (by norm_num)]

theorem triangulate_test_right_angle : triangulate ⟨1, 4⟩ ⟨1, 1⟩ 4 5 = ⟨5, 4⟩ := by
  have h1 : ¬practicallyZero (10.0 * dist2 ⟨1, 4⟩ ⟨1, 1⟩) := by
    rw [dist2_val_14_11, practicallyZero]
    norm_num
  have h2 : ¬practicallyZero (4 : ℝ) := by
    rw [practicallyZero]
    norm_num
  rw [triangulate]
  rw [if_neg h1, if_neg h2, dist2_val_14_11]
  have harg : ((3 : ℝ) * 3 + 4 * 4 - 5 * 5) / (2.0 * 3 * 4) = 0 := by norm_num
  rw [harg, Real.arccos_zero]
  have hnorm : normalize2 ((⟨1, 1⟩ : P2) - ⟨1, 4⟩) = ⟨0, -1⟩ := by
    rw [P2_sub_def, normalize2]
    norm_num
    rw [show (9:ℝ) = 3 ^ 2 by norm_num, Real.sqrt_sq (by norm_num : (0:ℝ) ≤ 3)]
    norm_num
  rw [hnorm, rot2]
  simp only [Real.cos_pi_div_two, Real.sin_pi_div_two]
  norm_num [P2.mk.injEq]

theorem triangulate_test_sqrt2 :
    triangulate ⟨0, 1⟩ ⟨1, 0⟩ (Real.sqrt 2) (Real.sqrt 2) =
      ⟨(1 + Real.sqrt 3) / 2, (1 + Real.sqrt 3) / 2⟩ := by
  have hs2 : Real.sqrt 2 * Real.sqrt 2 = 2 := Real.mul_self_sqrt (by norm_num)
  have hs2pos : 0 < Real.sqrt 2 := Real.sqrt_pos.mpr (by norm_num)
  have hs2one : (1 : ℝ) ≤ Real.sqrt 2 := by
    rw [show (1 : ℝ) = Real.sqrt 1 by rw [Real.sqrt_one]]
    exact Real.sqrt_le_sqrt (by norm_num)
  have hl : dist2 ⟨0, 1⟩ ⟨1, 0⟩ = Real.sqrt 2 := by
    rw [dist2, show ((⟨0, 1⟩ : P2).x - (⟨1, 0⟩ : P2).x) ^ 2 +
      ((⟨0, 1⟩ : P2).y - (⟨1, 0⟩ : P2).y) ^ 2 = (2 : ℝ) by norm_num]
  have h1 : ¬practicallyZero (10.0 * dist2 ⟨0, 1⟩ ⟨1, 0⟩) := by
    rw [hl, practicallyZero, abs_of_pos (by linarith)]
    push_neg
    linarith
  have h2 : ¬practicallyZero (Real.sqrt 2) := by
    rw [practicallyZero, abs_of_pos hs2pos]
    push_neg
    linarith
  rw [triangulate, if_neg h1, if_neg h2, hl]
  have harg : (Real.sqrt 2 * Real.sqrt 2 + Real.sqrt 2 * Real.sqrt 2 -
      Real.sqrt 2 * Real.sqrt 2) / (2.0 * Real.sqrt 2 * Real.sqrt 2) = 1 / 2 := by
    rw [mul_assoc, hs2]
    norm_num
  rw [harg]
  have harc : Real.arccos (1 / 2) = Real.pi / 3 := by
    rw [show (1 / 2 : ℝ) = Real.cos (Real.pi / 3) from (Real.cos_pi_div_three).symm]
    rw [Real.arccos_cos (by positivity) (by linarith [Real.pi_pos])]
  rw [harc]
  have hnorm : normalize2 ((⟨1, 0⟩ : P2) - ⟨0, 1⟩) =
      ⟨1 / Real.sqrt 2, -(1 / Real.sqrt 2)⟩ := by
    rw [P2_sub_def, normalize2]
    norm_num
    rw [neg_div, one_div]
  rw [hnorm, rot2]
  simp only [Real.cos_pi_div_three, Real.sin_pi_div_three]
  simp only [P2_add_def, P2_smul_def, P2.mk.injEq]
  constructor
  · field_simp
    ring_nf
  · field_simp
    ring_nf

/-- C2: the flattening step `triangulate` places `(1,4),(1,1)` with distances
4 and 5 exactly at `(5,4)`, and `(0,1),(1,0)` with both distances `sqrt 2` at
`((1+sqrt 3)/2, (1+sqrt 3)/2) ≈ (1.3660253, 1.3660254)`, within `10⁻⁶`. -/
theorem c2_triangulate_tests :
    triangulate ⟨1, 4⟩ ⟨1, 1⟩ 4 5 = ⟨5, 4⟩ ∧
    |(triangulate ⟨0, 1⟩ ⟨1, 0⟩ (Real.sqrt 2) (Real.sqrt 2)).x - 1.3660253| < 0.000001 ∧
    |(triangulate ⟨0, 1⟩ ⟨1, 0⟩ (Real.sqrt 2) (Real.sqrt 2)).y - 1.3660254| < 0.000001 := by
  have hlo : (1.73205 : ℝ) < Real.sqrt 3 := by
    rw [Real.lt_sqrt (by norm_num)]
    norm_num
  have hhi : Real.sqrt 3 < 1.7320509 := by
    rw [Real.sqrt_lt' (by norm_num)]
    norm_num
  refine ⟨triangulate_test_right_angle, ?_, ?_⟩
  · rw [triangulate_test_sqrt2]
    rw [show (⟨(1 + Real.sqrt 3) / 2, (1 + Real.sqrt 3) / 2⟩ : P2).x =
      (1 + Real.sqrt 3) / 2 from rfl, abs_lt]
    constructor <;> linarith
  · rw [triangulate_test_sqrt2]
    rw [show (⟨(1 + Real.sqrt 3) / 2, (1 + Real.sqrt 3) / 2⟩ : P2).y =
      (1 + Real.sqrt 3) / 2 from rfl, abs_lt]
    constructor <;> linarith

/-! ## Claim C7: triangulate is total on its degenerate inputs -/

theorem rot2_sq_norm (θ : ℝ) (v : P2) :
    (rot2 θ v).x ^ 2 + (rot2 θ v).y ^ 2 = v.x ^ 2 + v.y ^ 2 := by
  rw [rot2]
  linear_combination (v.x ^ 2 + v.y ^ 2) * Real.sin_sq_add_cos_sq θ

theorem normalize2_sq_norm (v : P2) (h : v.x ^ 2 + v.y ^ 2 ≠ 0) :
    (normalize2 v).x ^ 2 + (normalize2 v).y ^ 2 = 1 := by
  rw [normalize2]
  have hnn : (0 : ℝ) ≤ v.x ^ 2 + v.y ^ 2 := by positivity
  have hsq : Real.sqrt (v.x ^ 2 + v.y ^ 2) ^ 2 = v.x ^ 2 + v.y ^ 2 := Real.sq_sqrt hnn
  have hne : Real.sqrt (v.x ^ 2 + v.y ^ 2) ≠ 0 := by
    intro h0
    rw [h0] at hsq
    exact h (by linarith [hsq])
  field_simp

theorem dist2_add_smul (p : P2) (a : ℝ) (u : P2) (hu : u.x ^ 2 + u.y ^ 2 = 1) :
    dist2 (p + a • u) p = |a| := by
  rw [dist2]
  simp only [P2_add_def, P2_smul_def]
  rw [show (p.x + a * u.x - p.x) ^ 2 + (p.y + a * u.y - p.y) ^ 2 =
    a ^ 2 * (u.x ^ 2 + u.y ^ 2) by ring, hu, mul_one, Real.sqrt_sq_eq_abs]

/-- C7: both degenerate rules of `triangulate` are total and produce the
documented fallbacks.  When the pivots practically coincide, the new point is
`pt1` moved by the fixed fallback direction `(-1, 0)` scaled by `x` (so it
sits at distance `|x|` from `pt1`, with no division by the pivot distance);
when instead the first target distance `x` is practically zero, the point is
placed from the second pivot `pt2` by an angle computed with `pt2`'s own
target distance `y` (so it sits at distance `|y|` from `pt2`, with no
division by `x`).  Neither case is an error value. -/
theorem c7_triangulate_degenerate (pt1 pt2 : P2) (x y : ℝ) :
    (practicallyZero (10.0 * dist2 pt1 pt2) →
      triangulate pt1 pt2 x y = pt1 + x • P2.mk (-1) 0 ∧
      dist2 (triangulate pt1 pt2 x y) pt1 = |x|) ∧
    (¬practicallyZero (10.0 * dist2 pt1 pt2) → practicallyZero x →
      triangulate pt1 pt2 x y =
        pt2 + y • rot2 (-(Real.arccos ((dist2 pt1 pt2 * dist2 pt1 pt2 + y * y - x * x) /
          (2.0 * dist2 pt1 pt2 * y)))) (normalize2 (pt1 - pt2)) ∧
      dist2 (triangulate pt1 pt2 x y) pt2 = |y|) := by
  constructor
  · intro hz
    have hbranch : triangulate pt1 pt2 x y = pt1 + P2.mk (-x) 0.0 := by
      rw [triangulate, if_pos hz]
    have hsmul : pt1 + P2.mk (-x) 0.0 = pt1 + x • P2.mk (-1) 0 := by
      simp only [P2_add_def, P2_smul_def, P2.mk.injEq]
      norm_num
    refine ⟨hbranch.trans hsmul, ?_⟩
    rw [hbranch, hsmul]
    exact dist2_add_smul pt1 x ⟨-1, 0⟩ (by norm_num)
  · intro hnz hx
    have hbranch : triangulate pt1 pt2 x y =
        pt2 + y • rot2 (-(Real.arccos ((dist2 pt1 pt2 * dist2 pt1 pt2 + y * y - x * x) /
          (2.0 * dist2 pt1 pt2 * y)))) (normalize2 (pt1 - pt2)) := by
      rw [triangulate, if_neg hnz, if_pos hx]
    refine ⟨hbranch, ?_⟩
    rw [hbranch]
    have hlne : dist2 pt1 pt2 ≠ 0 := by
      intro h0
      apply hnz
      rw [h0, practicallyZero]
      norm_num
    have hSne : (pt1 - pt2).x ^ 2 + (pt1 - pt2).y ^ 2 ≠ 0 := by
      intro h0
      apply hlne
      rw [dist2, show (pt1.x - pt2.x) ^ 2 + (pt1.y - pt2.y) ^ 2 =
        (pt1 - pt2).x ^ 2 + (pt1 - pt2).y ^ 2 by rw [P2_sub_def], h0, Real.sqrt_zero]
    apply dist2_add_smul
    rw [rot2_sq_norm]
    exact normalize2_sq_norm _ hSne

/-- C7 witness: coincident pivots with target distance 1 produce the fallback
point exactly. -/
theorem c7_triangulate_degenerate_witness :
    triangulate ⟨0, 0⟩ ⟨0, 0⟩ 1 1 = ⟨-1, 0⟩ := by
  have hd : dist2 (⟨0, 0⟩ : P2) ⟨0, 0⟩ = 0 := by
    rw [dist2]
    norm_num
  have h := (c7_triangulate_degenerate ⟨0, 0⟩ ⟨0, 0⟩ 1 1).1
    (by rw [hd, practicallyZero]; norm_num)
  rw [h.1]
  norm_num [P2_add_def, P2_smul_def, P2.mk.injEq]

/-! ## Claims C6 and C10: the binary search of at_x -/

theorem bsLoop_sorted_spec (xs : List ℝ) (q : ℝ)
    (hs : ∀ i j : ℕ, i < j → j < xs.length → xs.getD i 0 < xs.getD j 0) :
    ∀ size base : ℕ, 1 ≤ size → base + size ≤ xs.length →
    (base = 0 ∨ xs.getD base 0 ≤ q) →
    (∀ k, base + size ≤ k → k < xs.length → q < xs.getD k 0) →
    bsLoop xs q base size < xs.length ∧
      (bsLoop xs q base size = 0 ∨ xs.getD (bsLoop xs q base size) 0 ≤ q) ∧
      (∀ k, bsLoop xs q base size < k → k < xs.length → q < xs.getD k 0) := by
  intro size
  induction size using Nat.strong_induction_on with
  | _ size ih =>
    intro base h1 hbs hbase hright
    rw [bsLoop]
    by_cases hgt : 1 < size
    · rw [dif_pos hgt]
      by_cases hcmp : q < xs.getD (base + size / 2) 0
      · rw [if_pos hcmp]
        apply ih (size - size / 2) (by omega) base (by omega) (by omega) hbase
        intro k hk hkn
        by_cases hk2 : base + size ≤ k
        · exact hright k hk2 hkn
        · have hmidk : base + size / 2 ≤ k := by omega
          rcases eq_or_lt_of_le hmidk with heq | hlt
          · rw [← heq]
            exact hcmp
          · exact lt_trans hcmp (hs (base + size / 2) k hlt hkn)
      · rw [if_neg hcmp]
        push_neg at hcmp
        apply ih (size - size / 2) (by omega) (base + size / 2) (by omega) (by omega)
          (Or.inr hcmp)
        intro k hk hkn
        exact hright k (by omega) hkn
    · rw [dif_neg hgt]
      refine ⟨by omega, hbase, ?_⟩
      intro k hk hkn
      exact hright k (by omega) hkn

theorem bsLoop_lt_length (xs : List ℝ) (q : ℝ) :
    ∀ size base : ℕ, 1 ≤ size → base + size ≤ xs.length →
    base ≤ bsLoop xs q base size ∧ bsLoop xs q base size < xs.length := by
  intro size
  induction size using Nat.strong_induction_on with
  | _ size ih =>
    intro base h1 hbs
    rw [bsLoop]
    by_cases hgt : 1 < size
    · rw [dif_pos hgt]
      by_cases hcmp : q < xs.getD (base + size / 2) 0
      · rw [if_pos hcmp]
        have := ih (size - size / 2) (by omega) base (by omega) (by omega)
        omega
      · rw [if_neg hcmp]
        have := ih (size - size / 2) (by omega) (base + size / 2) (by omega) (by omega)
        omega
    · rw [dif_neg hgt]
      omega

theorem bsLoop_all_lt (xs : List ℝ) (q : ℝ)
    (hall : ∀ k, k < xs.length → xs.getD k 0 < q) :
    ∀ size base : ℕ, 1 ≤ size → base + size ≤ xs.length →
    bsLoop xs q base size = base + size - 1 := by
  intro size
  induction size using Nat.strong_induction_on with
  | _ size ih =>
    intro base h1 hbs
    rw [bsLoop]
    by_cases hgt : 1 < size
    · rw [dif_pos hgt]
      have hmid : xs.getD (base + size / 2) 0 < q := hall _ (by omega)
      rw [if_neg (by push_neg; linarith)]
      rw [ih (size - size / 2) (by omega) (base + size / 2) (by omega) (by omega)]
      omega
    · rw [dif_neg hgt]
      omega

theorem getD_map_x (pts : List P3) (k : ℕ) (hk : k < pts.length) :
    (pts.map P3.x).getD k 0 = (pts.getD k default).x := by
  rw [List.getD_eq_getElem _ _ (by simpa using hk), List.getD_eq_getElem _ _ hk,
    List.getElem_map]

/-- C10: `at_x` never produces a recoverable `Err`: its only failure mode is
the `.expect` panic (`none`), reached exactly when the binary search falls off
the top end.  For any query at most the fore-aft coordinate of the last
cached sample the lookup succeeds with an `Ok` sample, and for a query
strictly above every cached sample's coordinate it panics. -/
theorem c10_atX_never_err (s : Spline) (q : ℝ) :
    (∀ e : String, s.atX q ≠ some (Except.error e)) ∧
    (∀ p : P3, s.points.getLast? = some p → q ≤ p.x → (s.atX q).isSome) ∧
    ((∀ p ∈ s.points, p.x < q) → s.atX q = none) := by
  refine ⟨?_, ?_, ?_⟩
  · intro e
    simp only [Spline.atX]
    cases s.points.get? (match binarySearchX s.points q with
      | Sum.inl i => i
      | Sum.inr i => i) with
    | none => simp
    | some p => simp
  · intro p hlast hq
    have hne : s.points ≠ [] := by
      intro h0
      rw [h0] at hlast
      simp at hlast
    have hn : 1 ≤ s.points.length := List.length_pos.mpr hne
    have hp : p = s.points.getD (s.points.length - 1) default := by
      rw [getLast_eq_getD _ hne] at hlast
      exact (Option.some.inj hlast).symm
    simp only [Spline.atX, binarySearchX]
    rw [if_neg (by omega)]
    have hxslen : (s.points.map P3.x).length = s.points.length := List.length_map _ _
    obtain ⟨hble, hblt⟩ := bsLoop_lt_length (s.points.map P3.x) q s.points.length 0
      (by omega) (by omega)
    have hsome : ∀ i : ℕ, i < s.points.length →
        (Option.isSome (match s.points.get? i with
          | some pt => some (Except.ok pt)
          | none => (none : Option (Except String P3))) : Prop) := by
      intro i hi
      rw [List.get?_eq_getElem?, List.getElem?_eq_getElem hi]
      simp
    by_cases heq : (s.points.map P3.x).getD (bsLoop (s.points.map P3.x) q 0 s.points.length) 0 = q
    · rw [if_pos heq]
      exact hsome (bsLoop (s.points.map P3.x) q 0 s.points.length) (by omega)
    · rw [if_neg heq]
      by_cases hlt : (s.points.map P3.x).getD (bsLoop (s.points.map P3.x) q 0 s.points.length) 0 < q
      · rw [if_pos hlt]
        have hlt2 : bsLoop (s.points.map P3.x) q 0 s.points.length + 1 < s.points.length := by
          by_contra hcon
          have hb : bsLoop (s.points.map P3.x) q 0 s.points.length = s.points.length - 1 := by
            omega
          rw [hb, getD_map_x _ _ (by omega)] at hlt
          rw [hp] at hq
          linarith
        exact hsome (bsLoop (s.points.map P3.x) q 0 s.points.length + 1) hlt2
      · rw [if_neg hlt]
        exact hsome (bsLoop (s.points.map P3.x) q 0 s.points.length) (by omega)
  · intro hall
    by_cases hn0 : s.points.length = 0
    · have hnil : s.points = [] := List.length_eq_zero.mp hn0
      simp only [Spline.atX, binarySearchX]
      rw [if_pos hn0, hnil]
      rfl
    · have hn : 1 ≤ s.points.length := by omega
      have hxslen : (s.points.map P3.x).length = s.points.length := List.length_map _ _
      have hallx : ∀ k, k < (s.points.map P3.x).length → (s.points.map P3.x).getD k 0 < q := by
        intro k hk
        rw [getD_map_x _ _ (by omega)]
        apply hall
        rw [List.getD_eq_getElem?_getD, List.getElem?_eq_getElem (by omega)]
        exact List.getElem_mem _
      have hb := bsLoop_all_lt (s.points.map P3.x) q hallx s.points.length 0 (by omega)
        (by omega)
      simp only [Spline.atX, binarySearchX]
      rw [if_neg hn0, hb]
      have hlt : (s.points.map P3.x).getD (0 + s.points.length - 1) 0 < q :=
        hallx _ (by omega)
      rw [if_neg (by linarith), if_pos hlt]
      show (match s.points.get? (0 + s.points.length - 1 + 1) with
        | some pt => some (Except.ok pt)
        | none => (none : Option (Except String P3))) = none
      rw [List.get?_eq_getElem?, List.getElem?_eq_none (by omega)]

/-- C6 (amended): over cached samples whose fore-aft coordinates are strictly
increasing, `at_x` returns the *first* sample whose fore-aft coordinate is at
least the query (the binary-search insertion point) — not the nearest
sample. -/
theorem c6_atX_first_not_below (s : Spline) (q : ℝ)
    (hs : ∀ i j : ℕ, i < j → j < s.points.length →
      (s.points.getD i default).x < (s.points.getD j default).x)
    (i : ℕ) (hi : i < s.points.length)
    (hlow : ∀ k, k < i → (s.points.getD k default).x < q)
    (hq : q ≤ (s.points.getD i default).x) :
    s.atX q = some (Except.ok (s.points.getD i default)) := by
  have hn : 1 ≤ s.points.length := by omega
  have hxslen : (s.points.map P3.x).length = s.points.length := List.length_map _ _
  have hsx : ∀ a b : ℕ, a < b → b < (s.points.map P3.x).length →
      (s.points.map P3.x).getD a 0 < (s.points.map P3.x).getD b 0 := by
    intro a b hab hb
    rw [getD_map_x _ _ (by omega), getD_map_x _ _ (by omega)]
    exact hs a b hab (by omega)
  obtain ⟨hblt, hbdis, hbright⟩ := bsLoop_sorted_spec (s.points.map P3.x) q hsx
    s.points.length 0 (by omega) (by omega) (Or.inl rfl)
    (fun k hk hkn => absurd (by omega : k < k) (lt_irrefl k))
  simp only [Spline.atX, binarySearchX]
  rw [if_neg (by omega)]
  by_cases heq : (s.points.map P3.x).getD (bsLoop (s.points.map P3.x) q 0 s.points.length) 0 = q
  · rw [if_pos heq]
    have hbi : bsLoop (s.points.map P3.x) q 0 s.points.length = i := by
      rcases lt_trichotomy (bsLoop (s.points.map P3.x) q 0 s.points.length) i with hlt | he | hgt
      · exfalso
        rw [getD_map_x _ _ (by omega)] at heq
        have := hlow _ hlt
        linarith
      · exact he
      · exfalso
        have h1 := hs i _ hgt (by omega)
        rw [getD_map_x _ _ (by omega)] at heq
        linarith
    show (match s.points.get? (bsLoop (s.points.map P3.x) q 0 s.points.length) with
      | some pt => some (Except.ok pt)
      | none => (none : Option (Except String P3))) =
        some (Except.ok (s.points.getD i default))
    rw [hbi, List.get?_eq_getElem?, List.getElem?_eq_getElem hi,
      List.getD_eq_getElem _ _ hi]
  · rw [if_neg heq]
    by_cases hlt : (s.points.map P3.x).getD (bsLoop (s.points.map P3.x) q 0 s.points.length) 0 < q
    · rw [if_pos hlt]
      have hbi : bsLoop (s.points.map P3.x) q 0 s.points.length + 1 = i := by
        have hbl : bsLoop (s.points.map P3.x) q 0 s.points.length < i := by
          rcases lt_trichotomy (bsLoop (s.points.map P3.x) q 0 s.points.length) i
            with h | he | hgt
          · exact h
          · exfalso
            rw [he, getD_map_x _ _ (by omega)] at hlt
            linarith
          · exfalso
            have h1 := hs i _ hgt (by omega)
            rw [getD_map_x _ _ (by omega)] at hlt
            linarith
        by_contra hcon
        have hmid : bsLoop (s.points.map P3.x) q 0 s.points.length + 1 < i := by omega
        have h1 := hbright _ (by omega : bsLoop (s.points.map P3.x) q 0 s.points.length <
          bsLoop (s.points.map P3.x) q 0 s.points.length + 1) (by omega)
        rw [getD_map_x _ _ (by omega)] at h1
        have := hlow _ hmid
        linarith
      show (match s.points.get? (bsLoop (s.points.map P3.x) q 0 s.points.length + 1) with
        | some pt => some (Except.ok pt)
        | none => (none : Option (Except String P3))) =
          some (Except.ok (s.points.getD i default))
      rw [hbi, List.get?_eq_getElem?, List.getElem?_eq_getElem hi,
        List.getD_eq_getElem _ _ hi]
    · rw [if_neg hlt]
      push_neg at heq hlt
      have hqb : q < (s.points.map P3.x).getD (bsLoop (s.points.map P3.x) q 0
        s.points.length) 0 := lt_of_le_of_ne hlt (Ne.symm heq)
      have hb0 : bsLoop (s.points.map P3.x) q 0 s.points.length = 0 := by
        rcases hbdis with h0 | hle
        · exact h0
        · exfalso
          linarith
      have hi0 : i = 0 := by
        by_contra hcon
        have := hlow 0 (by omega)
        rw [hb0, getD_map_x _ _ (by omega)] at hqb
        linarith
      show (match s.points.get? (bsLoop (s.points.map P3.x) q 0 s.points.length) with
        | some pt => some (Except.ok pt)
        | none => (none : Option (Except String P3))) =
          some (Except.ok (s.points.getD i default))
      rw [hb0, hi0, List.get?_eq_getElem?, List.getElem?_eq_getElem (by omega),
        List.getD_eq_getElem _ _ (by omega)]

/-- C6, as stated, is false: on the spline through `exX` (fore-aft
coordinates 0, 1, 2, 3) the query 1/5 returns the sample at x = 1, although
the cached sample at x = 0 is strictly nearer to the query. -/
theorem c6_nearest_counterexample :
    ∃ s : Spline, Spline.new exX 1 = some s ∧
      s.atX (1 / 5) = some (Except.ok ⟨1, 0, 0⟩) ∧
      (⟨0, 0, 0⟩ : P3) ∈ s.points ∧
      |(0 : ℝ) - 1 / 5| < |(⟨1, 0, 0⟩ : P3).x - 1 / 5| := by
  refine ⟨⟨exX⟩, ?_, ?_, ?_, ?_⟩
  · simp only [exX]
    exact spline_new_res1 _ _ _ _ (by norm_num [P3.mk.injEq]) (by norm_num [P3.mk.injEq])
      (by norm_num [P3.mk.injEq])
  · have hloop : bsLoop [0, 1, 2, 3] ((1 : ℝ) / 5) 0 4 = 0 := by
      rw [bsLoop]
      norm_num [List.getD_cons_zero, List.getD_cons_succ]
      rw [bsLoop]
      norm_num [List.getD_cons_zero, List.getD_cons_succ]
      rw [bsLoop]
      norm_num
    simp only [Spline.atX, binarySearchX, exX]
    norm_num [hloop, List.getD_cons_zero, List.getD_cons_succ]
  · simp [exX]
  · have h1 : |(0 : ℝ) - 1 / 5| = 1 / 5 := by
      rw [abs_sub_comm, abs_of_pos (by norm_num)]
      norm_num
    have h2 : |(⟨1, 0, 0⟩ : P3).x - 1 / 5| = 4 / 5 := by
      rw [show (⟨1, 0, 0⟩ : P3).x = 1 from rfl, abs_of_pos (by norm_num)]
      norm_num
    rw [h1, h2]
    norm_num

/-- C6 witness: the amended behaviour on the spline through `exX` at query 2,
which is the fore-aft coordinate of the third cached sample. -/
theorem c6_atX_first_not_below_witness :
    (Spline.mk exX).atX 2 = some (Except.ok (⟨2, 0, 0⟩ : P3)) := by
  have h := c6_atX_first_not_below ⟨exX⟩ 2
    (by
      intro i j hij hj
      have hj4 : j < 4 := by simpa [exX] using hj
      interval_cases j <;> interval_cases i <;> norm_num [exX])
    2 (by norm_num [exX])
    (by
      intro k hk
      interval_cases k <;> norm_num [exX])
    (by norm_num [exX])
  rw [h]
  norm_num [exX]

/-! ## Claim C8: stacked planks do not overlap -/

theorem ys_shiftUp (p : FlattenedPlank) (d : ℝ) :
    (p.shiftUp d).ys = p.ys.map (fun v => v + d) := by
  simp [FlattenedPlank.ys, FlattenedPlank.shiftUp, List.map_append, List.map_map,
    Function.comp_def]

theorem foldl_min_map_add (d : ℝ) (rest : List ℝ) : ∀ a : ℝ,
    List.foldl min (a + d) (rest.map (fun v => v + d)) = List.foldl min a rest + d := by
  induction rest with
  | nil => intro a; rfl
  | cons b t ih =>
    intro a
    rw [List.map_cons, List.foldl_cons, List.foldl_cons, min_add_add_right, ih]

theorem minY_shiftUp (p : FlattenedPlank) (d : ℝ) (h : p.ys ≠ []) :
    (p.shiftUp d).minY = p.minY + d := by
  rw [FlattenedPlank.minY, FlattenedPlank.minY, ys_shiftUp]
  cases hys : p.ys with
  | nil => exact absurd hys h
  | cons a rest =>
    rw [List.map_cons]
    exact foldl_min_map_add d rest a

theorem ys_orient_ne (p : FlattenedPlank) (h : p.ys ≠ []) :
    p.orientHorizontally.ys ≠ [] := by
  intro h0
  apply h
  have hlen : p.orientHorizontally.ys.length = p.ys.length := by
    simp [FlattenedPlank.ys, FlattenedPlank.orientHorizontally]
  rw [h0] at hlen
  exact List.eq_nil_of_length_eq_zero hlen.symm

theorem EQUALITY_THRESHOLD_pos : 0 < EQUALITY_THRESHOLD := by
  rw [EQUALITY_THRESHOLD]
  norm_num

theorem layOutWalk_nil (lastY : Option ℝ) : layOutWalk lastY [] = [] := rfl

theorem layOutWalk_cons (lastY : Option ℝ) (p : FlattenedPlank) (ps : List FlattenedPlank) :
    layOutWalk lastY (p :: ps) = layOutStep lastY p.orientHorizontally ::
      layOutWalk (some (layOutStep lastY p.orientHorizontally).maxY) ps := rfl

theorem layOutStep_ys_ne (lastY : Option ℝ) (p1 : FlattenedPlank) (h : p1.ys ≠ []) :
    (layOutStep lastY p1).ys ≠ [] := by
  cases lastY with
  | none => exact h
  | some ly =>
    rw [layOutStep]
    intro h0
    apply h
    have := congrArg List.length ((ys_shiftUp p1 (ly - p1.minY +
      2.0 * EQUALITY_THRESHOLD)).symm.trans h0)
    rw [List.length_map] at this
    exact List.eq_nil_of_length_eq_zero this

theorem layOutWalk_spec (fps : List FlattenedPlank) : ∀ lastY : Option ℝ,
    (∀ fp ∈ fps, fp.ys ≠ []) →
    List.Chain' (fun a b => FlattenedPlank.maxY a ≤ FlattenedPlank.minY b)
      (layOutWalk lastY fps) ∧
    (∀ (ly : ℝ) (fp : FlattenedPlank) (rest : List FlattenedPlank),
      lastY = some ly → layOutWalk lastY fps = fp :: rest → ly ≤ fp.minY) := by
  induction fps with
  | nil =>
    intro lastY _
    refine ⟨List.chain'_nil, ?_⟩
    intro ly fp rest _ hcon
    rw [layOutWalk_nil] at hcon
    exact absurd hcon (by simp)
  | cons p ps ih =>
    intro lastY hys
    have hpys : p.ys ≠ [] := hys p (by simp)
    have hpsys : ∀ fp ∈ ps, fp.ys ≠ [] := fun fp hfp => hys fp (by simp [hfp])
    have hp1ys : p.orientHorizontally.ys ≠ [] := ys_orient_ne p hpys
    have hp2ys : (layOutStep lastY p.orientHorizontally).ys ≠ [] :=
      layOutStep_ys_ne lastY _ hp1ys
    obtain ⟨ihchain, ihhead⟩ := ih (some (layOutStep lastY p.orientHorizontally).maxY) hpsys
    rw [layOutWalk_cons]
    constructor
    · rw [List.chain'_cons']
      refine ⟨?_, ihchain⟩
      intro y hy
      cases hws : layOutWalk (some (layOutStep lastY p.orientHorizontally).maxY) ps with
      | nil => rw [hws] at hy; simp at hy
      | cons fp rest =>
        rw [hws] at hy
        simp at hy
        rw [← hy]
        exact ihhead _ fp rest rfl hws
    · intro ly fp rest hly hcons
      have hfp : fp = layOutStep lastY p.orientHorizontally := by
        have := (List.cons.injEq _ _ _ _ ▸ hcons).1
        exact this.symm
      rw [hfp, hly, layOutStep]
      rw [minY_shiftUp _ _ hp1ys]
      have := EQUALITY_THRESHOLD_pos
      linarith

theorem collectOpt_mem {α β : Type} (f : α → Option β) : ∀ (l : List α) (r : List β),
    collectOpt f l = some r → ∀ b ∈ r, ∃ a ∈ l, f a = some b := by
  intro l
  induction l with
  | nil =>
    intro r h b hb
    rw [collectOpt] at h
    have : r = [] := (Option.some.inj h).symm
    rw [this] at hb
    simp at hb
  | cons a t ih =>
    intro r h b hb
    rw [collectOpt] at h
    cases hfa : f a with
    | none => rw [hfa] at h; simp at h
    | some b0 =>
      rw [hfa] at h
      cases hrec : collectOpt f t with
      | none => rw [hrec] at h; simp at h
      | some bs =>
        rw [hrec] at h
        have hr : r = b0 :: bs := (Option.some.inj h).symm
        rw [hr] at hb
        rcases List.mem_cons.mp hb with hb0 | hbs
        · exact ⟨a, by simp, by rw [hfa, hb0]⟩
        · obtain ⟨a', ha', hfa'⟩ := ih bs hrec b hbs
          exact ⟨a', by simp [ha'], hfa'⟩

theorem flatten_ys_ne (p : Plank) (fp : FlattenedPlank) (h : p.flatten = some fp) :
    fp.ys ≠ [] := by
  rw [Plank.flatten] at h
  cases htr : p.triangles with
  | none => rw [htr] at h; simp at h
  | some v =>
    rw [htr] at h
    obtain ⟨fl, tris⟩ := v
    have hfp : fp = ⟨(⟨0.0, 0.0⟩ : P2) :: (flattenWalk tris ⟨0.0, 0.0⟩ ⟨0.0, fl⟩).1,
        (⟨0.0, fl⟩ : P2) :: (flattenWalk tris ⟨0.0, 0.0⟩ ⟨0.0, fl⟩).2⟩ :=
      (Option.some.inj h).symm
    rw [hfp]
    simp [FlattenedPlank.ys]

/-- C8: in the list `Hull::get_flattened_planks` returns, every consecutively
stacked pair of flattened planks satisfies: the earlier (lower) plank's
maximum y extent is at most the later (upper) plank's minimum y extent (the
shift places the upper plank a positive clearance gap above). -/
theorem c8_flattened_planks_nonoverlap (planks : List Plank) (out : List FlattenedPlank)
    (h : getFlattenedPlanks planks = some out) :
    List.Chain' (fun a b => FlattenedPlank.maxY a ≤ FlattenedPlank.minY b) out := by
  rw [getFlattenedPlanks] at h
  cases hc : collectOpt Plank.flatten planks with
  | none => rw [hc] at h; simp at h
  | some fps =>
    rw [hc] at h
    have hout : out = layOutWalk none fps := (Option.some.inj h).symm
    rw [hout]
    refine (layOutWalk_spec fps none ?_).1
    intro fp hfp
    obtain ⟨pl, _, hflat⟩ := collectOpt_mem Plank.flatten planks fps hc fp hfp
    exact flatten_ys_ne pl fp hflat
theorem c8_flattened_planks_nonoverlap_witness :
    getFlattenedPlanks [⟨⟨[⟨0, 0, 0⟩, ⟨0, 0, 1⟩]⟩, ⟨[⟨0, 0, 0⟩, ⟨0, 0, 1⟩]⟩, 1⟩] =
      some [⟨[⟨0, 0⟩, ⟨1, 0⟩], [⟨0, 0⟩, ⟨1, 0⟩]⟩] ∧
    List.Chain' (fun a b => FlattenedPlank.maxY a ≤ FlattenedPlank.minY b)
      [⟨[⟨0, 0⟩, ⟨1, 0⟩], [⟨0, 0⟩, ⟨1, 0⟩]⟩] := by
  have h : getFlattenedPlanks [⟨⟨[⟨0, 0, 0⟩, ⟨0, 0, 1⟩]⟩, ⟨[⟨0, 0, 0⟩, ⟨0, 0, 1⟩]⟩, 1⟩] =
      some [⟨[⟨0, 0⟩, ⟨1, 0⟩], [⟨0, 0⟩, ⟨1, 0⟩]⟩] := by
    norm_num [getFlattenedPlanks, collectOpt, Plank.flatten, Plank.triangles, Spline.sample,
      show List.range 2 = [0, 1] from rfl, Spline.atT, Spline.length, projectPoints, project,
      polyLen2, dist2, dist3, Spline.atLen, atLenWalk, projectedDistance, practicallyZero,
      linearInterpolate, flattenWalk, triangulate, normalize2, rot2, Real.sqrt_one,
      Real.sqrt_zero, Real.arccos_one, Real.cos_zero, Real.sin_zero, layOutWalk, layOutStep,
      FlattenedPlank.orientHorizontally, rotToHorizontal, FlattenedPlank.minY,
      FlattenedPlank.maxY, FlattenedPlank.ys, P2.mk.injEq, P3.mk.injEq, P2_add_def,
      P2_sub_def, P2_smul_def, P3_add_def, P3_smul_def, List.getD_cons_zero,
      List.getD_cons_succ]
  exact ⟨h, c8_flattened_planks_nonoverlap _ _ h⟩

/-! ## Claim C9: plank resampling and flattening -/

theorem countMultAux_length_le (l : List P3) : ∀ (prev : P3) (m : ℕ),
    (countMultAux prev m l).length ≤ 1 + l.length := by
  induction l with
  | nil => intro prev m; simp [countMultAux]
  | cons p r ih =>
    intro prev m
    rw [countMultAux]
    by_cases hp : p = prev
    · rw [if_pos hp]
      have := ih prev (m + 1)
      simp only [List.length_cons]
      omega
    · rw [if_neg hp]
      have := ih p 1
      simp only [List.length_cons]
      omega

theorem countMultiplicity_length_le (l : List P3) :
    (countMultiplicity l).length ≤ l.length := by
  cases l with
  | nil => simp [countMultiplicity]
  | cons p r =>
    rw [countMultiplicity]
    have := countMultAux_length_le r p 1
    simp only [List.length_cons]
    omega

theorem polyLen2_nonneg (l : List P2) : 0 ≤ polyLen2 l := by
  induction l with
  | nil => simp [polyLen2]
  | cons a t ih =>
    cases t with
    | nil => simp [polyLen2]
    | cons b r =>
      rw [polyLen2]
      have := dist2_nonneg a b
      have h2 : 0 ≤ polyLen2 (b :: r) := ih
      linarith

theorem spline_length_nonneg (s : Spline) : 0 ≤ s.length := by
  rw [Spline.length]
  exact polyLen2_nonneg _

theorem spline_atLen_isSome (s : Spline) (h2 : 2 ≤ s.points.length) (d : ℝ)
    (h0 : 0 ≤ d) (hd : d ≤ s.length) : (s.atLen d).isSome := by
  obtain ⟨p, q, r, hpts⟩ : ∃ p q r, s.points = p :: q :: r := by
    cases hp : s.points with
    | nil => rw [hp] at h2; simp at h2
    | cons a t =>
      cases ht : t with
      | nil => rw [hp, ht] at h2; simp at h2
      | cons b u =>
        subst ht
        exact ⟨a, b, u, rfl⟩
  rw [Spline.atLen, hpts]
  apply atLenWalk_isSome _ _ _ _ (by simp)
  have hlen : s.length = remLen p (q :: r) := by rw [Spline.length, hpts, remLen]
  rw [hlen] at hd
  linarith

theorem spline_new_ge_four (pts : List P3) (res : ℕ) (s : Spline)
    (h : Spline.new pts res = some s) :
    4 ≤ (countMultiplicity pts).length ∧ s.points = splinePoints (countMultiplicity pts) res := by
  simp only [Spline.new] at h
  by_cases hlen : (countMultiplicity pts).length < 4
  · rw [if_pos hlen] at h
    simp at h
  · rw [if_neg hlen] at h
    exact ⟨by omega, (Option.some.inj h).symm ▸ rfl⟩

theorem splineChunk_length_ge (rp : List (P3 × ℕ)) (res : ℕ) :
    res + 1 ≤ (splineChunk rp res (rp.length - 4)).length := by
  rw [splineChunk]
  simp only [eq_self_iff_true, if_true, Bool.false_eq_true, if_false,
    List.length_append, sample_length]
  omega

theorem spline_new_points_ge_two (pts : List P3) (res : ℕ) (s : Spline)
    (hres : 1 ≤ res) (h : Spline.new pts res = some s) : 2 ≤ s.points.length := by
  obtain ⟨h4, hpts⟩ := spline_new_ge_four pts res s h
  rw [hpts, splinePoints, List.length_flatMap]
  have hmem : ((countMultiplicity pts).length - 4) ∈
      List.range ((countMultiplicity pts).length - 3) := by
    rw [List.mem_range]
    omega
  have hle := List.single_le_sum
    (l := (List.range ((countMultiplicity pts).length - 3)).map
      (List.length ∘ splineChunk (countMultiplicity pts) res))
    (fun x _ => Nat.zero_le x)
    ((List.length ∘ splineChunk (countMultiplicity pts) res)
      ((countMultiplicity pts).length - 4))
    (List.mem_map_of_mem _ hmem)
  have hchunk := splineChunk_length_ge (countMultiplicity pts) res
  simp only [Function.comp_apply] at hle
  omega

theorem collectOpt_some_of_isSome {α β : Type} (f : α → Option β) :
    ∀ l : List α, (∀ a ∈ l, (f a).isSome) →
    ∃ r, collectOpt f l = some r ∧ r.length = l.length := by
  intro l
  induction l with
  | nil => intro _; exact ⟨[], rfl, rfl⟩
  | cons a t ih =>
    intro h
    obtain ⟨b, hb⟩ := Option.isSome_iff_exists.mp (h a (by simp))
    obtain ⟨r, hr, hrl⟩ := ih (fun x hx => h x (by simp [hx]))
    refine ⟨b :: r, ?_, by simp [hrl]⟩
    rw [collectOpt, hb, hr]

theorem spline_sample_some (s : Spline) (h2 : 2 ≤ s.points.length) (r : ℕ) (hr : 1 ≤ r) :
    ∃ pts, s.sample (some r) = some pts ∧ pts.length = r + 1 := by
  rw [Spline.sample]
  have hall : ∀ i ∈ List.range (r + 1),
      ((fun (i : ℕ) => s.atT ((i : ℝ) / (r : ℝ))) i).isSome := by
    intro i hi
    rw [List.mem_range] at hi
    simp only [Spline.atT]
    have hrpos : (0 : ℝ) < r := by exact_mod_cast hr
    have ht0 : 0 ≤ (i : ℝ) / (r : ℝ) := by positivity
    have ht1 : (i : ℝ) / (r : ℝ) ≤ 1 := by
      rw [div_le_one hrpos]
      exact_mod_cast (by omega : i ≤ r)
    have hlnn := spline_length_nonneg s
    apply spline_atLen_isSome s h2
    · positivity
    · have hmul : (i : ℝ) / (r : ℝ) * s.length ≤ 1 * s.length :=
        mul_le_mul_of_nonneg_right ht1 hlnn
      rw [one_mul] at hmul
      exact hmul
  obtain ⟨out, hout, hlen⟩ := collectOpt_some_of_isSome
    (fun (i : ℕ) => s.atT ((i : ℝ) / (r : ℝ))) (List.range (r + 1)) hall
  exact ⟨out, hout, by rw [hlen, List.length_range]⟩

theorem flattenWalk_lengths (tris : List (ℝ × ℝ × ℝ × ℝ)) : ∀ tp bp : P2,
    (flattenWalk tris tp bp).1.length = tris.length ∧
    (flattenWalk tris tp bp).2.length = tris.length := by
  induction tris with
  | nil => intro tp bp; exact ⟨rfl, rfl⟩
  | cons t rest ih =>
    intro tp bp
    obtain ⟨a, b, c, d⟩ := t
    rw [flattenWalk]
    have := ih (triangulate tp bp a b) (triangulate (triangulate tp bp a b) bp c d)
    simp only [List.length_cons]
    omega

/-- C9 (amended): for every Plank built by `Plank::new` with resolution at
least 1, resampling the two boundary splines at the plank's stored resolution
succeeds and yields exactly `resolution + 1` points each, so the "different
number of top and bottom points" panic in `Plank::triangles` is unreachable,
and `Plank::flatten` returns top and bottom lines of equal length, each one
longer than the number of triangulation steps by one.  (At resolution 0 the
resampling itself panics, see the counterexample.) -/
theorem c9_plank_spec (botLine topLine : List P3) (res : ℕ) (hres : 1 ≤ res)
    (p : Plank) (h : Plank.new botLine topLine res = some p) :
    (∃ tp, p.top_line.sample (some p.resolution) = some tp ∧
      tp.length = p.resolution + 1) ∧
    (∃ bp, p.bottom_line.sample (some p.resolution) = some bp ∧
      bp.length = p.resolution + 1) ∧
    (∃ tr, p.triangles = some tr ∧ tr.2.length = p.resolution) ∧
    (∃ fp, p.flatten = some fp ∧ fp.top_line.length = fp.bottom_line.length ∧
      fp.top_line.length = p.resolution + 1) := by
  rw [Plank.new] at h
  cases hb : Spline.new botLine res with
  | none => rw [hb] at h; simp at h
  | some sbot =>
    cases ht : Spline.new topLine res with
    | none => rw [hb, ht] at h; simp at h
    | some stop =>
      rw [hb, ht] at h
      have hp : p = ⟨stop, sbot, ((botLine.length + topLine.length) / 2) * res⟩ :=
        (Option.some.inj h).symm
      have hbl4 : 4 ≤ botLine.length := by
        have h1 := (spline_new_ge_four botLine res sbot hb).1
        have h2 := countMultiplicity_length_le botLine
        omega
      have htl4 : 4 ≤ topLine.length := by
        have h1 := (spline_new_ge_four topLine res stop ht).1
        have h2 := countMultiplicity_length_le topLine
        omega
      have hres1 : 1 ≤ ((botLine.length + topLine.length) / 2) * res := by
        have : 4 ≤ (botLine.length + topLine.length) / 2 := by omega
        exact Nat.le_trans (by omega) (Nat.mul_le_mul this hres)
      have hbot2 : 2 ≤ sbot.points.length := spline_new_points_ge_two _ _ _ hres hb
      have htop2 : 2 ≤ stop.points.length := spline_new_points_ge_two _ _ _ hres ht
      obtain ⟨tpts, htpts, htlen⟩ := spline_sample_some stop htop2
        (((botLine.length + topLine.length) / 2) * res) hres1
      obtain ⟨bpts, hbpts, hblen⟩ := spline_sample_some sbot hbot2
        (((botLine.length + topLine.length) / 2) * res) hres1
      have hres_eq : p.resolution = ((botLine.length + topLine.length) / 2) * res := by
        rw [hp]
      have htline : p.top_line = stop := by rw [hp]
      have hbline : p.bottom_line = sbot := by rw [hp]
      have htr : p.triangles = some (dist3 (tpts.getD 0 default) (bpts.getD 0 default),
          (List.range (tpts.length - 1)).map fun i =>
            (dist3 (tpts.getD i default) (tpts.getD (i + 1) default),
             dist3 (bpts.getD i default) (tpts.getD (i + 1) default),
             dist3 (tpts.getD (i + 1) default) (bpts.getD (i + 1) default),
             dist3 (bpts.getD i default) (bpts.getD (i + 1) default))) := by
        rw [Plank.triangles, htline, hbline, hres_eq, htpts, hbpts]
        show (if tpts.length ≠ bpts.length then none
          else some (dist3 (tpts.getD 0 default) (bpts.getD 0 default),
            (List.range (tpts.length - 1)).map fun i =>
              (dist3 (tpts.getD i default) (tpts.getD (i + 1) default),
               dist3 (bpts.getD i default) (tpts.getD (i + 1) default),
               dist3 (tpts.getD (i + 1) default) (bpts.getD (i + 1) default),
               dist3 (bpts.getD i default) (bpts.getD (i + 1) default)))) = _
        rw [if_neg (by rw [htlen, hblen]; simp)]
      refine ⟨⟨tpts, by rw [htline, hres_eq]; exact ⟨htpts, by omega⟩⟩,
        ⟨bpts, by rw [hbline, hres_eq]; exact ⟨hbpts, by omega⟩⟩,
        ⟨_, htr, by simp [htlen, hres_eq]⟩, ?_⟩
      rw [Plank.flatten, htr]
      refine ⟨_, rfl, ?_, ?_⟩
      · simp only [List.length_cons]
        have := flattenWalk_lengths ((List.range (tpts.length - 1)).map fun i =>
          (dist3 (tpts.getD i default) (tpts.getD (i + 1) default),
           dist3 (bpts.getD i default) (tpts.getD (i + 1) default),
           dist3 (tpts.getD (i + 1) default) (bpts.getD (i + 1) default),
           dist3 (bpts.getD i default) (bpts.getD (i + 1) default)))
          ⟨0.0, 0.0⟩ ⟨0.0, dist3 (tpts.getD 0 default) (bpts.getD 0 default)⟩
        omega
      · simp only [List.length_cons]
        have := flattenWalk_lengths ((List.range (tpts.length - 1)).map fun i =>
          (dist3 (tpts.getD i default) (tpts.getD (i + 1) default),
           dist3 (bpts.getD i default) (tpts.getD (i + 1) default),
           dist3 (tpts.getD (i + 1) default) (bpts.getD (i + 1) default),
           dist3 (bpts.getD i default) (bpts.getD (i + 1) default)))
          ⟨0.0, 0.0⟩ ⟨0.0, dist3 (tpts.getD 0 default) (bpts.getD 0 default)⟩
        rw [this.1, List.length_map, List.length_range, htlen, hres_eq]
        omega

/-- C9, as stated (for every plank, any resolution), is false: at resolution
0 the boundary splines cache a single point, the resample walks off the end
of the polyline and panics, and `flatten` never returns. -/
theorem c9_res0_counterexample :
    ∃ p : Plank, Plank.new exX exX 0 = some p ∧
      p.top_line.sample (some p.resolution) = none ∧ p.flatten = none := by
  have h4 : countMultiplicity exX =
      [(⟨0, 0, 0⟩, 1), (⟨1, 0, 0⟩, 1), (⟨2, 0, 0⟩, 1), (⟨3, 0, 0⟩, 1)] := by
    norm_num [exX, countMultiplicity, countMultAux, P3.mk.injEq]
  have hs0 : Spline.new exX 0 = some ⟨[⟨3, 0, 0⟩]⟩ := by
    rw [spline_new_unfold _ _ (by rw [h4]; norm_num), h4]
    rw [splinePoints,
      show List.range ([((⟨0, 0, 0⟩ : P3), 1), (⟨1, 0, 0⟩, 1), (⟨2, 0, 0⟩, 1),
        (⟨3, 0, 0⟩, 1)].length - 3) = [0] from rfl,
      List.flatMap_cons, List.flatMap_nil]
    simp only [splineChunk, repeatPt]
    norm_num [CentripetalCatmullRom.sample]
    exact (new_atFrac_endpoints ⟨0, 0, 0⟩ ⟨1, 0, 0⟩ ⟨2, 0, 0⟩ ⟨3, 0, 0⟩
      (by norm_num [P3.mk.injEq]) (by norm_num [P3.mk.injEq])
      (by norm_num [P3.mk.injEq])).2.2.2
  have hpn : Plank.new exX exX 0 = some ⟨⟨[⟨3, 0, 0⟩]⟩, ⟨[⟨3, 0, 0⟩]⟩, 0⟩ := by
    rw [Plank.new, hs0]
    rfl
  refine ⟨⟨⟨[⟨3, 0, 0⟩]⟩, ⟨[⟨3, 0, 0⟩]⟩, 0⟩, hpn, ?_, ?_⟩
  · rfl
  · rfl

/-- C9 witness: at resolution 1 over the distinct points of `exZ`, the plank
resamples to 5 = 4 + 1 points per boundary and flattens to equal-length
outlines. -/
theorem c9_plank_spec_witness :
    ∃ p : Plank, Plank.new exZ exZ 1 = some p ∧
      ((∃ tp, p.top_line.sample (some p.resolution) = some tp ∧
        tp.length = p.resolution + 1) ∧
      (∃ bp, p.bottom_line.sample (some p.resolution) = some bp ∧
        bp.length = p.resolution + 1) ∧
      (∃ tr, p.triangles = some tr ∧ tr.2.length = p.resolution) ∧
      (∃ fp, p.flatten = some fp ∧ fp.top_line.length = fp.bottom_line.length ∧
        fp.top_line.length = p.resolution + 1)) := by
  have hs : Spline.new exZ 1 = some ⟨exZ⟩ := by
    simp only [exZ]
    exact spline_new_res1 _ _ _ _ (by norm_num [P3.mk.injEq]) (by norm_num [P3.mk.injEq])
      (by norm_num [P3.mk.injEq])
  have hpn : Plank.new exZ exZ 1 = some ⟨⟨exZ⟩, ⟨exZ⟩, 4⟩ := by
    rw [Plank.new, hs]
    rfl
  exact ⟨⟨⟨exZ⟩, ⟨exZ⟩, 4⟩, hpn, c9_plank_spec exZ exZ 1 (by norm_num) _ hpn⟩
